import Mathlib

/-!
# Verification of the rust-ci-timing-tracker ingestion pipeline

Shallow embedding of `src/bin/publish-data-to-s3.rs`, `src/bin/build-site.rs`
and `src/lib.rs`.

Modelling conventions:
* Rust `String`/`&str` values are embedded as `List Char` (named `Str` here);
  all string operations (`find`, `splitn`, `lines`, `trim`, ...) are
  re-implemented on character lists, character by character, following the
  Rust standard library semantics actually exercised by the code.
* `f64` values are embedded as exact rationals `ℚ`; every numeric literal the
  claims exercise is a small dyadic rational, where IEEE double arithmetic is
  exact, so the embedding agrees with the code on these inputs.
* `HashMap`/`BTreeMap` are embedded as association lists with first-match
  lookup and update-in-place-or-append writes (`mapUpd`/`hInsert`).  Map
  iteration order is abstracted away except where a claim observes it: the
  `jobs` aggregation map of `write_overall` feeds its key order into a stable
  sort, so it uses sorted insertion (`btUpd`), matching `BTreeMap` iteration
  order.  (`parts.drain()` iterates a `HashMap` in arbitrary order, but the
  merge it performs is additive, so every lookup is order-independent.)
* Rust panics (`unwrap` on `None`, `parse().unwrap()` failures) are embedded
  as `Except.error`; nothing in the program catches them, and the embedding
  propagates them to the top exactly as a panic aborts the process.
* The HTTP transport is out of scope per the specification; vendor endpoints
  are embedded as pure page functions, and the S3 existence probe as a
  boolean oracle.
-/

set_option autoImplicit false

deriving instance DecidableEq for Except

abbrev Str := List Char

def strLit (s : String) : Str := s.toList

/-- Lexicographic order on strings, matching `Ord` for Rust `String`
(byte order coincides with code-point order on the ASCII content of CI logs). -/
def strLt : Str → Str → Bool
  | [], [] => false
  | [], _ :: _ => true
  | _ :: _, [] => false
  | a :: as, b :: bs => a < b || (a = b && strLt as bs)

/-! ## Association-list maps -/

/-- Lookup in an association list (first matching key). -/
def alookup {α : Type} : List (Str × α) → Str → Option α
  | [], _ => none
  | (k, v) :: rest, key => if key = k then some v else alookup rest key

def containsKey {α : Type} (m : List (Str × α)) (k : Str) : Bool :=
  (alookup m k).isSome

/-- `*map.entry(k).or_insert(0.0) += v` on a `HashMap<String, f64>`:
update the existing entry in place, or append a fresh one. -/
def updateAdd : List (Str × ℚ) → Str → ℚ → List (Str × ℚ)
  | [], k, v => [(k, v)]
  | (k', v') :: rest, k, v =>
    if k = k' then (k', v' + v) :: rest else (k', v') :: updateAdd rest k v

/-- `HashMap::insert` (replaces the value for an existing key, silently). -/
def hInsert {α : Type} : List (Str × α) → Str → α → List (Str × α)
  | [], k, v => [(k, v)]
  | (k', v') :: rest, k, v =>
    if k = k' then (k', v) :: rest else (k', v') :: hInsert rest k v

/-- Map entry update, `m.entry(k).or_insert(..)` style: applies `f` to the
previous value at `k`, replacing it in place or appending a fresh entry. -/
def mapUpd {α : Type} : List (Str × α) → Str → (Option α → α) → List (Str × α)
  | [], k, f => [(k, f none)]
  | (k', v') :: rest, k, f =>
    if k = k' then (k', f (some v')) :: rest else (k', v') :: mapUpd rest k f

/-- `BTreeMap` entry update keeping the list sorted (used where `BTreeMap`
key iteration order is observable): replaces the value at an existing key or
inserts at the sorted position, applying `f` to the previous value. -/
def btUpd {α : Type} : List (Str × α) → Str → (Option α → α) → List (Str × α)
  | [], k, f => [(k, f none)]
  | (k', v') :: rest, k, f =>
    if k = k' then (k', f (some v')) :: rest
    else if strLt k k' then (k, f none) :: (k', v') :: rest
    else (k', v') :: btUpd rest k f

/-- Total value stored under key `k` (sums duplicate entries). -/
def partsSum : List (Str × ℚ) → Str → ℚ
  | [], _ => 0
  | (k', v) :: rest, k => (if k = k' then v else 0) + partsSum rest k

/-- Addition on optional quantities: `none` is "no entry", not zero. -/
def optAdd : Option ℚ → Option ℚ → Option ℚ
  | none, b => b
  | some a, none => some a
  | some a, some b => some (a + b)

def keysNodup {α : Type} (m : List (Str × α)) : Prop :=
  (m.map Prod.fst).Nodup

/-! ## String primitives (Rust `str` methods on `List Char`) -/

/-- `s.starts_with(pre)`. -/
def startsWith : Str → Str → Bool
  | _, [] => true
  | [], _ :: _ => false
  | c :: cs, p :: ps => c = p && startsWith cs ps

/-- Split at the first occurrence of `sep`: `splitFirstL sep s = some (a, b)`
when `s = a ++ sep ++ b` with the occurrence leftmost; `none` when `sep` does
not occur in `s`.  Embeds `str::find` plus slicing. -/
def splitFirstL (sep : Str) : Str → Option (Str × Str)
  | [] => none
  | c :: rest =>
    if startsWith (c :: rest) sep then some ([], (c :: rest).drop sep.length)
    else
      match splitFirstL sep rest with
      | none => none
      | some (pre, post) => some (c :: pre, post)

/-- `fn find_get_after(content, needle)` from publish-data-to-s3.rs:
the remainder of `content` after the first occurrence of `needle`. -/
def find_get_after (content needle : Str) : Option Str :=
  (splitFirstL needle content).map Prod.snd

/-- `content.contains(needle)`. -/
def strContains (content needle : Str) : Bool :=
  (find_get_after content needle).isSome

/-- `s.split(sep).next().unwrap()`: everything before the first occurrence of
`sep`, or all of `s` when `sep` does not occur. -/
def firstPieceL (s sep : Str) : Str :=
  match splitFirstL sep s with
  | none => s
  | some (pre, _) => pre

/-- `s.rsplitn(2, ' ')`: the first `next()` is the segment after the last
space, the second `next()` is the (optional) segment before it. -/
def rsplitn2 (s : Str) : Str × Option Str :=
  match splitFirstL [' '] s.reverse with
  | none => (s, none)
  | some (timeRev, nameRev) => (timeRev.reverse, some nameRev.reverse)

/-- Split on `'\n'`, keeping empty segments (always returns at least one
segment, like `str::split`). -/
def splitNewlines : Str → List Str
  | [] => [[]]
  | c :: rest =>
    if c = '\n' then [] :: splitNewlines rest
    else
      match splitNewlines rest with
      | [] => [[c]]
      | l :: ls => (c :: l) :: ls

/-- Strip one trailing `'\r'` (what `str::lines` does to each line). -/
def stripCR (l : Str) : Str :=
  match l.reverse with
  | c :: r => if c = '\r' then r.reverse else l
  | [] => l

/-- `contents.lines()`: split on `'\n'`, drop the final empty segment
(so `"".lines()` is empty), strip one trailing `'\r'` per line. -/
def rustLines (s : Str) : List Str :=
  let parts := splitNewlines s
  (if parts.getLast? = some [] then parts.dropLast else parts).map stripCR

def isWS (c : Char) : Bool :=
  c = ' ' || c = '\t' || c = '\n' || c = '\r'

/-- `line.trim()` (the whitespace appearing in CI logs is ASCII). -/
def trimL (s : Str) : Str :=
  ((s.dropWhile isWS).reverse.dropWhile isWS).reverse

/-! ## `f64` parsing (`str::parse::<f64>`), on the finite-decimal fragment -/

def digitsVal (l : Str) : ℕ :=
  l.foldl (fun a c => a * 10 + (c.toNat - 48)) 0

def allDigits (l : Str) : Bool :=
  l.all Char.isDigit

/-- `Digits`, `Digits '.' [Digits]` or `'.' Digits`, as an exact rational. -/
def parseMantissa (m : Str) : Option ℚ :=
  match splitFirstL ['.'] m with
  | none => if m ≠ [] ∧ allDigits m then some (digitsVal m) else none
  | some (i, f) =>
    if (i ≠ [] ∨ f ≠ []) ∧ allDigits i ∧ allDigits f then
      some ((digitsVal i : ℚ) + (digitsVal f : ℚ) / (10 : ℚ) ^ f.length)
    else none

def stripSign (s : Str) : ℚ × Str :=
  match s with
  | '+' :: r => (1, r)
  | '-' :: r => (-1, r)
  | r => (1, r)

/-- `str::parse::<f64>` on the finite decimal/scientific grammar, as an exact
rational.  (`inf`/`NaN` literals are rejected; no CI timing line and no claim
produces them, and `ℚ` has no representation for them.) -/
def parseF64 (s : Str) : Option ℚ :=
  let (sign, rest) := stripSign s
  let norm := rest.map (fun c => if c = 'E' then 'e' else c)
  match splitFirstL ['e'] norm with
  | none => (parseMantissa norm).map (fun m => sign * m)
  | some (m, e) =>
    match parseMantissa m with
    | none => none
    | some mv =>
      let (esign, edig) := stripSign e
      if edig ≠ [] ∧ allDigits edig then
        some (sign * mv * (10 : ℚ) ^ ((if esign = 1 then (1 : ℤ) else -1) * digitsVal edig))
      else none

/-! ## Data model (`src/lib.rs`) -/

/-- `shared::Timing`: a phase's directly-reported duration plus attributed
sub-phase durations (`parts` is a `BTreeMap<String, f64>`). -/
structure Timing where
  dur : ℚ
  parts : List (Str × ℚ)
deriving DecidableEq, Repr

/-- `shared::Job`. -/
structure Job where
  url : Str
  path : Str
  cpu_microarch : Option Str
  timings : List (Str × Timing)
deriving DecidableEq, Repr

/-- `shared::Commit` (the published per-commit artifact). -/
structure CommitR where
  jobs : List (Str × Job)
deriving DecidableEq, Repr

/-- `shared::GitCommit`. -/
structure GitCommitE where
  sha : Str
  date : Str
deriving DecidableEq, Repr

/-- `Log` from publish-data-to-s3.rs. -/
structure LogEntry where
  job_url : Str
  contents : Str
  path : Str
deriving DecidableEq, Repr

/-! ## `Context::extract_timings`

The loop body of `extract_timings` performs, per (trimmed) line, at most one
pending-parts update (the `[RUSTC-TIMING]` branch) followed by at most one
phase close-out (the `[TIMING]` branch); each branch can also panic on an
unparsable numeric payload, or (first branch) on a missing name segment.
The embedding parses each line into the list of actions it performs
(`lineEvs`, zero to two events, `Except.error` for the panics — parsing a
line is state-independent in the code) and then applies them in order
(`applyEv`), which is exactly the order of effects of the Rust loop body. -/

inductive Ev where
  | part (name : Str) (val : ℚ)
  | phase (step : Str) (val : ℚ)
deriving DecidableEq, Repr

/-- Running state of the extraction loop: `parts` is the pending-parts
`HashMap`, `ret` the result `BTreeMap`. -/
structure EState where
  parts : List (Str × ℚ)
  ret : List (Str × Timing)
deriving DecidableEq, Repr

def panicFloat : Str := strLit "panicked: invalid float literal"

def panicUnwrapNone : Str := strLit "panicked: called unwrap on a None value"

/-- Actions performed by one iteration of the `extract_timings` loop on the
given line, or the panic it raises. -/
def lineEvs (line0 : Str) : Except Str (List Ev) := do
  let line := trimL line0
  let e1 ← match find_get_after line (strLit "[RUSTC-TIMING] ") with
    | none => pure ([] : List Ev)
    | some rest =>
      let (timeStr, nameOpt) := rsplitn2 rest
      match parseF64 timeStr with
      | none => throw panicFloat
      | some time =>
        match nameOpt with
        | none => throw panicUnwrapNone
        | some name => pure [Ev.part name time]
  let e2 ← match find_get_after line (strLit "[TIMING] ") with
    | none => pure ([] : List Ev)
    | some rest =>
      match splitFirstL (strLit " -- ") rest with
      | none => pure ([] : List Ev)
      | some (step, durStr) =>
        match parseF64 durStr with
        | none => throw panicFloat
        | some dur => pure [Ev.phase step dur]
  pure (e1 ++ e2)

/-- Close out a phase: `timing.dur += dur` and every pending part is merged
additively into `timing.parts` (then the pending buffer is cleared by the
caller).  Follows `for (k, v) in parts.drain()`. -/
def mergeT (t : Timing) (dur : ℚ) (pending : List (Str × ℚ)) : Timing :=
  { dur := t.dur + dur,
    parts := pending.foldl (fun ps kv => mapUpd ps kv.1 (fun o => o.getD 0 + kv.2)) t.parts }

def applyEv (s : EState) : Ev → EState
  | .part name v => { s with parts := updateAdd s.parts name v }
  | .phase step dur =>
    { parts := [],
      ret := mapUpd s.ret step (fun o => mergeT (o.getD ⟨0, []⟩) dur s.parts) }

def applyEvs (evs : List Ev) (s : EState) : EState :=
  evs.foldl applyEv s

def extractLoop : List Str → EState → Except Str EState
  | [], s => .ok s
  | l :: ls, s => do extractLoop ls (applyEvs (← lineEvs l) s)

/-- All actions of a whole log, line by line. -/
def logEvs : List Str → Except Str (List Ev)
  | [] => .ok []
  | l :: ls => do pure ((← lineEvs l) ++ (← logEvs ls))

/-- `Context::extract_timings` (the `&self` receiver is unused by the code).
Returns the result `BTreeMap`, or the panic message. -/
def extract_timings (contents : Str) : Except Str (List (Str × Timing)) :=
  (extractLoop (rustLines contents) ⟨[], []⟩).map EState.ret

/-! ## `Context::extract_cpu_microarch` and the microarchitecture table -/

def INTEL_CPU_MODEL_TO_MICROARCH : List (Str × Str × Str) :=
  [ (strLit "6", strLit "45", strLit "sandybridge"),
    (strLit "6", strLit "62", strLit "ivybridge"),
    (strLit "6", strLit "63", strLit "haswell"),
    (strLit "6", strLit "79", strLit "broadwell"),
    (strLit "6", strLit "85", strLit "skylake"),
    (strLit "6", strLit "86", strLit "broadwell") ]

def microarchLoop : List Str → Option Str → Option Str
  | [], _ => none
  | l :: ls, fam =>
    let line := trimL l
    match fam with
    | none =>
      match find_get_after line (strLit "cpu family\t: ") with
      | some familyContent => microarchLoop ls (some familyContent)
      | none => microarchLoop ls none
    | some family =>
      match find_get_after line (strLit "model\t\t: ") with
      | some model =>
        (INTEL_CPU_MODEL_TO_MICROARCH.find?
          (fun t => t.1 = family && t.2.1 = model)).map (fun t => t.2.2)
      | none => microarchLoop ls (some family)

def extract_cpu_microarch (contents : Str) : Option Str :=
  microarchLoop (rustLines contents) none

/-! ## `Context::identify_job` -/

def ciNeedle : Str := strLit "[CI_JOB_NAME="

/-- `Context::identify_job`: first line containing `[CI_JOB_NAME=`, text after
the marker up to the next `]`.  No fallback of any kind exists in the code. -/
def identify_job (contents : Str) : Except Str Str :=
  match (rustLines contents).find? (fun l => strContains l ciNeedle) with
  | none => .error (strLit "failed to find [CI_JOB_NAME=")
  | some line =>
    match find_get_after line ciNeedle with
    | none => .error (strLit "unreachable: find succeeded but contains failed")
    | some rest => .ok (firstPieceL rest [']'])

/-! ## `Context::cache_commit` and `Context::run`

`cache_commit` takes the local-cache hit flag (`dst.exists()`) and the
outcome of `Context::logs` (which performs all vendor traffic) as inputs;
returning `.ok none` is the early-return path that touches nothing, and
`.ok (some meta)` stands for serializing, gzipping and writing `meta`.
Errors (`?` propagation and panics) are `.error`. -/

def buildMeta : List LogEntry → CommitR → Except Str CommitR
  | [], meta => .ok meta
  | log :: rest, meta => do
    let job ← (identify_job log.contents).mapError
      (fun e => strLit "failed to identify " ++ log.job_url ++ strLit ": " ++ e)
    let timings ← extract_timings log.contents
    buildMeta rest
      ⟨mapUpd meta.jobs job (fun _ =>
        ⟨log.job_url, log.path, extract_cpu_microarch log.contents, timings⟩)⟩

def cache_commit (localExists : Bool) (logsResult : Except Str (List LogEntry)) :
    Except Str (Option CommitR) :=
  if localExists then .ok none
  else do
    let logs ← logsResult
    let meta ← buildMeta logs ⟨[]⟩
    pure (some meta)

/-- `Context::run`: walk commits newest-first; `break` on the first commit
whose artifact already exists on S3, otherwise `cache_commit` (propagating
its error).  Returns the commits probed against S3, the commits successfully
processed, and the error that stopped the walk, if any. -/
def runWalk (existsOnS3 : Str → Bool) (cacheCommit : Str → Except Str Unit) :
    List Str → List Str × List Str × Option Str
  | [] => ([], [], none)
  | c :: cs =>
    if existsOnS3 c then ([c], [], none)
    else
      match cacheCommit c with
      | .error e => ([c], [c], some e)
      | .ok _ =>
        let (pr, pd, r) := runWalk existsOnS3 cacheCommit cs
        (c :: pr, c :: pd, r)

/-! ## Provider directories (`logs`, `load_more_travis`, `load_more_appveyor`)

The vendor HTTP endpoints are embedded as pure page sources: Travis serves
windows of a fixed build history list (`?offset=..&limit=25`), AppVeyor is a
function from the continuation id (`startBuildId`) to a page.  `Context::logs`
spins `while self.travis.get(commit).is_none() { self.load_more_travis()?; }`
(and likewise for AppVeyor): the loop has exactly one exit — the commit being
present in the map — so the embedding runs it on fuel, `none` meaning the
loop is still running after that many iterations. -/

structure TravisBuild where
  id : ℕ
  sha : Str
deriving DecidableEq, Repr

structure TState where
  travis_offset : ℕ
  travis : List (Str × TravisBuild)
deriving DecidableEq, Repr

/-- The page Travis serves for `?offset=..&limit=25`. -/
def travisPage (history : List TravisBuild) (offset : ℕ) : List TravisBuild :=
  (history.drop offset).take 25

/-- `Context::load_more_travis`: fetch one page, advance the offset by the
page length, insert every build keyed by its commit sha. -/
def load_more_travis (history : List TravisBuild) (s : TState) : TState :=
  let builds := travisPage history s.travis_offset
  { travis_offset := s.travis_offset + builds.length,
    travis := builds.foldl (fun m b => hInsert m b.sha b) s.travis }

/-- The Travis half of `Context::logs`: loop `load_more_travis` until the
commit is in the map.  `some s` = the loop exited (commit found) in at most
`fuel` iterations; `none` = still looping. -/
def travisLookupLoop (history : List TravisBuild) (commit : Str) :
    ℕ → TState → Option TState
  | fuel, s =>
    if (alookup s.travis commit).isSome then some s
    else
      match fuel with
      | 0 => none
      | f + 1 => travisLookupLoop history commit f (load_more_travis history s)

structure AppveyorBuild where
  id : ℕ
  version : Str
  commit_id : Str
deriving DecidableEq, Repr

structure AState where
  appveyor_start_id : Option ℕ
  appveyor : List (Str × AppveyorBuild)
deriving DecidableEq, Repr

/-- `Context::load_more_appveyor`: fetch the page at the current continuation
id, then `response.builds.last().unwrap()` — a panic (embedded as `.error`)
when the page is empty — and insert every build keyed by commit id. -/
def load_more_appveyor (pagef : Option ℕ → List AppveyorBuild) (s : AState) :
    Except Str AState :=
  let builds := pagef s.appveyor_start_id
  match builds.getLast? with
  | none => .error panicUnwrapNone
  | some last =>
    .ok { appveyor_start_id := some last.id,
          appveyor := builds.foldl (fun m b => hInsert m b.commit_id b) s.appveyor }

/-! ## `Context::get_log` (the log cache)

The gzip codec lives in the external `flate2` crate, so it is embedded as an
abstract compress/decompress pair; the cached blob at the derived path is the
`Option Str` input, the fetch closure is the `get` input.  The result carries
the returned text, the blob written to the cache (`none` = nothing written),
and whether the fetch closure was invoked. -/

def get_log (cached : Option Str) (compress : Str → Str)
    (decompress : Str → Option Str) (get : Except Str Str) :
    Except Str (Str × Option Str × Bool) :=
  match cached with
  | some raw =>
    match decompress raw with
    | none => .error (strLit "gz read_to_string failed")
    | some contents => .ok (contents, none, false)
  | none =>
    match get with
    | .error e => .error e
    | .ok log => .ok (log, some (compress log), true)

/-! ## `build-site.rs`: `write_overall` -/

def timingsTotal (ts : List (Str × Timing)) : ℚ :=
  ts.foldl (fun acc kv => acc + kv.2.dur) 0

def distcheckStr : Str := strLit "Distcheck"

/-- The per-commit series value: `data.timings.iter().filter(k != "Distcheck")
.map(v.dur).sum()`. -/
def timingsTotalExcl (ts : List (Str × Timing)) : ℚ :=
  (ts.filter (fun kv => kv.1 ≠ distcheckStr)).foldl (fun acc kv => acc + kv.2.dur) 0

def distcheckTotal (ts : List (Str × Timing)) : ℚ :=
  (ts.filter (fun kv => kv.1 = distcheckStr)).foldl (fun acc kv => acc + kv.2.dur) 0

/-- One commit's contribution to the `jobs` aggregation map of
`write_overall`: `*count += 1` and `*total += timing.dur` over ALL timings
(note: no Distcheck filter on this path in the code). -/
def overallStep (jobs : List (Str × ℕ × ℚ)) (c : CommitR) : List (Str × ℕ × ℚ) :=
  c.jobs.foldl
    (fun js kv =>
      btUpd js kv.1 (fun o =>
        let p := o.getD (0, 0)
        (p.1 + 1, p.2 + timingsTotal kv.2.timings)))
    jobs

def overallJobs (commits : List (GitCommitE × CommitR)) : List (Str × ℕ × ℚ) :=
  commits.foldl (fun js p => overallStep js p.2) []

/-- Rust `f64 as i64`: truncation toward zero. -/
def rustTruncToI64 (q : ℚ) : ℤ :=
  if 0 ≤ q then Rat.floor q else -(Rat.floor (-q))

/-- The sort key of `slowest_jobs`: `(-total / (count as f64)) as i64`.
(`jobs[name]` panics on an absent name; the names sorted always come from the
map's own keys, so the `none` arm is unreachable.) -/
def sortKeyFn (jobs : List (Str × ℕ × ℚ)) (name : Str) : ℤ :=
  match alookup jobs name with
  | some p => rustTruncToI64 (-p.2 / (p.1 : ℚ))
  | none => 0

/-- Stable insertion into a key-sorted list (`Vec::sort_by_key` is stable). -/
def sortedInsert (key : Str → ℤ) (x : Str) : List Str → List Str
  | [] => [x]
  | y :: ys => if key x ≤ key y then x :: y :: ys else y :: sortedInsert key x ys

def stableSortByKey (key : Str → ℤ) (l : List Str) : List Str :=
  l.foldr (sortedInsert key) []

def seriesVal (c : CommitR) (j : Str) : ℚ :=
  match alookup c.jobs j with
  | some data => timingsTotalExcl data.timings
  | none => 0

/-- `write_overall`: the `series` part of the emitted `overall.json` (one
`(name, data)` pair per job, ranked by the code's sort key; the per-commit
values are reversed into oldest-first order) and the `commits` axis. -/
def write_overall (commits : List (GitCommitE × CommitR)) :
    List (Str × List ℚ) × List (Str × Str) :=
  let jobs := overallJobs commits
  let slowest := stableSortByKey (sortKeyFn jobs) (jobs.map Prod.fst)
  (slowest.map (fun j => (j, (commits.map (fun p => seriesVal p.2 j)).reverse)),
   (commits.map (fun p => (p.1.sha, p.1.date))).reverse)

/-- Modelled from the spec (§4.7): the ranking key the specification
describes, with the named diagnostic phase excluded from each job's total
duration before taking the mean.  Used only to compare against the code's
`sortKeyFn`. -/
def specRankKeyFn (commits : List (GitCommitE × CommitR)) (name : Str) : ℤ :=
  let count := (commits.filter (fun p => containsKey p.2.jobs name)).length
  let total := (commits.map (fun p =>
    match alookup p.2.jobs name with
    | some j => timingsTotalExcl j.timings
    | none => 0)).sum
  rustTruncToI64 (-total / (count : ℚ))

/-! ## Map lemmas -/

theorem alookup_mapUpd {α : Type} (m : List (Str × α)) (k : Str) (f : Option α → α)
    (k' : Str) :
    alookup (mapUpd m k f) k' = if k' = k then some (f (alookup m k)) else alookup m k' := by
  induction m with
  | nil =>
    by_cases h : k' = k <;> simp [mapUpd, alookup, h]
  | cons hd tl ih =>
    obtain ⟨a, b⟩ := hd
    by_cases hka : k = a
    · subst hka
      by_cases h : k' = k <;> simp [mapUpd, alookup, h]
    · by_cases h : k' = a
      · subst h
        have hk : ¬ k' = k := fun he => hka he.symm
        simp [mapUpd, alookup, hka, hk]
      · simp [mapUpd, alookup, hka, h, ih]

theorem alookup_hInsert {α : Type} (m : List (Str × α)) (k : Str) (v : α) (k' : Str) :
    alookup (hInsert m k v) k' = if k' = k then some v else alookup m k' := by
  induction m with
  | nil =>
    by_cases h : k' = k <;> simp [hInsert, alookup, h]
  | cons hd tl ih =>
    obtain ⟨a, b⟩ := hd
    by_cases hka : k = a
    · subst hka
      by_cases h : k' = k <;> simp [hInsert, alookup, h]
    · by_cases h : k' = a
      · subst h
        have hk : ¬ k' = k := fun he => hka he.symm
        simp [hInsert, alookup, hka, hk]
      · simp [hInsert, alookup, hka, h, ih]

theorem alookup_updateAdd (p : List (Str × ℚ)) (n : Str) (v : ℚ) (n' : Str) :
    alookup (updateAdd p n v) n'
      = if n' = n then some ((alookup p n).getD 0 + v) else alookup p n' := by
  induction p with
  | nil =>
    by_cases h : n' = n <;> simp [updateAdd, alookup, h]
  | cons hd tl ih =>
    obtain ⟨a, b⟩ := hd
    by_cases hna : n = a
    · subst hna
      by_cases h : n' = n <;> simp [updateAdd, alookup, h, add_comm]
    · by_cases h : n' = a
      · subst h
        have hk : ¬ n' = n := fun he => hna he.symm
        simp [updateAdd, alookup, hna, hk]
      · simp [updateAdd, alookup, hna, h, ih]

theorem containsKey_updateAdd (p : List (Str × ℚ)) (n : Str) (v : ℚ) (n' : Str) :
    containsKey (updateAdd p n v) n' = (containsKey p n' || n' = n) := by
  unfold containsKey
  rw [alookup_updateAdd]
  by_cases h : n' = n <;> simp [h]

theorem partsSum_eq_zero (p : List (Str × ℚ)) (n : Str) (h : containsKey p n = false) :
    partsSum p n = 0 := by
  induction p with
  | nil => simp [partsSum]
  | cons hd tl ih =>
    obtain ⟨a, b⟩ := hd
    unfold containsKey alookup at h
    by_cases hna : n = a
    · simp [hna] at h
    · simp [hna] at h
      simp [partsSum, hna, ih (by simp [containsKey, h])]

theorem partsSum_cons (a : Str) (b : ℚ) (rest : List (Str × ℚ)) (k : Str) :
    partsSum ((a, b) :: rest) k = (if k = a then b else 0) + partsSum rest k := rfl

theorem partsSum_updateAdd (p : List (Str × ℚ)) (n : Str) (v : ℚ) (n' : Str) :
    partsSum (updateAdd p n v) n' = partsSum p n' + if n' = n then v else 0 := by
  induction p with
  | nil =>
    by_cases h : n' = n <;> simp [updateAdd, partsSum, h]
  | cons hd tl ih =>
    obtain ⟨a, b⟩ := hd
    by_cases hna : n = a
    · subst hna
      rw [show updateAdd ((n, b) :: tl) n v = (n, b + v) :: tl from by
        simp [updateAdd]]
      rw [partsSum_cons, partsSum_cons]
      by_cases h : n' = n <;> simp [h] <;> ring
    · rw [show updateAdd ((a, b) :: tl) n v = (a, b) :: updateAdd tl n v from by
        simp [updateAdd, hna]]
      rw [partsSum_cons, partsSum_cons, ih]
      ring

theorem optAdd_none_right (a : Option ℚ) : optAdd a none = a := by
  cases a <;> simp [optAdd]

theorem optAdd_some_right (a : Option ℚ) (x : ℚ) :
    optAdd a (some x) = some (a.getD 0 + x) := by
  cases a <;> simp [optAdd]

/-! ## C1: publish-gate short circuit -/

/-- C1: the walk probes S3 for each commit up to and including the first
already-published one, processes exactly the commits strictly before it
(`takeWhile` of the not-yet-published test), and never probes or processes
any older commit (the probed list stops at the first hit, the processed list
just before it).  Stated under the assumption that processing each commit
succeeds, which is the scenario of the claim. -/
theorem publish_gate_short_circuit (ex : Str → Bool) (cc : Str → Except Str Unit)
    (l : List Str) (h : ∀ c, cc c = .ok ()) :
    runWalk ex cc l
      = (l.takeWhile (fun c => !ex c) ++ (l.dropWhile (fun c => !ex c)).take 1,
         l.takeWhile (fun c => !ex c), none) := by
  induction l with
  | nil => simp [runWalk]
  | cons c cs ih =>
    by_cases he : ex c
    · simp [runWalk, he, List.takeWhile_cons, List.dropWhile_cons]
    · simp [runWalk, he, h c, ih, List.takeWhile_cons, List.dropWhile_cons]

theorem publish_gate_short_circuit_witness :
    runWalk (fun c => c = strLit "C3") (fun _ => .ok ())
        [strLit "C5", strLit "C4", strLit "C3", strLit "C2", strLit "C1"]
      = ([strLit "C5", strLit "C4", strLit "C3"], [strLit "C5", strLit "C4"], none) := by
  rw [publish_gate_short_circuit (fun c => c = strLit "C3") (fun _ => .ok ())
    [strLit "C5", strLit "C4", strLit "C3", strLit "C2", strLit "C1"] (fun _ => rfl)]
  decide

/-! ## C10: local per-commit cache short circuit -/

/-- C10: when the per-commit artifact already exists locally, `cache_commit`
returns success without consulting the vendor-log computation at all (the
result is the same even if every vendor interaction would have failed) and
without building or writing anything (the `none` early-return path); and,
unlike a remote publish-gate hit, the walk then continues with the next older
commit. -/
theorem local_cache_short_circuit :
    (∀ logsResult : Except Str (List LogEntry), cache_commit true logsResult = .ok none)
    ∧ (∀ (ex localE : Str → Bool) (logsRes : Str → Except Str (List LogEntry))
        (c : Str) (rest : List Str),
        ex c = false → localE c = true →
        runWalk ex (fun x => (cache_commit (localE x) (logsRes x)).map (fun _ => ()))
            (c :: rest)
          = ((runWalk ex (fun x => (cache_commit (localE x) (logsRes x)).map (fun _ => ()))
                rest).1.cons c,
             (runWalk ex (fun x => (cache_commit (localE x) (logsRes x)).map (fun _ => ()))
                rest).2.1.cons c,
             (runWalk ex (fun x => (cache_commit (localE x) (logsRes x)).map (fun _ => ()))
                rest).2.2)) := by
  constructor
  · intro logsResult
    rfl
  · intro ex localE logsRes c rest hex hloc
    show runWalk _ _ (c :: rest) = _
    rw [runWalk]
    simp only [hex, hloc, Bool.false_eq_true, if_false]
    simp only [cache_commit, if_pos hloc]
    rfl

theorem local_cache_short_circuit_witness :
    cache_commit true (.error (strLit "network down")) = .ok none
    ∧ runWalk (fun _ => false)
        (fun _ => (cache_commit true (Except.error (strLit "network down"))).map
          (fun _ => ()))
        [strLit "A", strLit "B"]
      = ([strLit "A", strLit "B"], [strLit "A", strLit "B"], none) := by
  constructor
  · exact local_cache_short_circuit.1 (.error (strLit "network down"))
  · rw [local_cache_short_circuit.2 (fun _ => false)
      (fun _ => true) (fun _ => .error (strLit "network down"))
      (strLit "A") [strLit "B"] rfl rfl]
    decide

/-! ## C8: log cache round trip -/

/-- C8: assuming the gzip codec is lossless (decompressing what was
compressed gives back the input — the claim's "compression followed by
decompression is the identity"), the miss path of `get_log` fetches the text,
writes exactly its compressed form to the derived path, and returns the
original text; re-reading that blob takes the hit path, returns exactly the
original text, and never invokes the fetch closure — the hit-path result does
not depend on the fetch argument at all. -/
theorem log_cache_round_trip (compress : Str → Str) (decompress : Str → Option Str)
    (text : Str) (get1 get2 : Except Str Str)
    (hround : ∀ s, decompress (compress s) = some s) :
    get_log none compress decompress (.ok text) = .ok (text, some (compress text), true)
    ∧ get_log (some (compress text)) compress decompress get1 = .ok (text, none, false)
    ∧ get_log (some (compress text)) compress decompress get1
        = get_log (some (compress text)) compress decompress get2 := by
  refine ⟨rfl, ?_, ?_⟩ <;> simp [get_log, hround text]

theorem log_cache_round_trip_witness :
    get_log none (fun s => s) (fun s => some s) (.ok (strLit "hello"))
      = .ok (strLit "hello", some (strLit "hello"), true)
    ∧ get_log (some (strLit "hello")) (fun s => s) (fun s => some s)
        (.error (strLit "boom"))
      = .ok (strLit "hello", none, false) := by
  have h := log_cache_round_trip (fun s => s) (fun s => some s) (strLit "hello")
    (.error (strLit "boom")) (.ok (strLit "x")) (fun _ => rfl)
  exact ⟨h.1, h.2.1⟩

/-! ## C7: vendor build maps grow monotonically, duplicates overwrite -/

/-- C7 counterexample: on BOTH vendors, loading a page that contains two
builds with the same commit id silently overwrites the first build with the
second — the Travis load cannot even signal an error (its type has no error
outcome) and the AppVeyor load returns `Ok` — and the stored build is the
later one, so duplicate insertion is NOT rejected as a logic error on either
vendor's map. -/
theorem build_map_dup_counterexample :
    (alookup (load_more_travis
        [⟨1, strLit "a"⟩, ⟨2, strLit "a"⟩] ⟨0, []⟩).travis (strLit "a")
      = some ⟨2, strLit "a"⟩
    ∧ (⟨2, strLit "a"⟩ : TravisBuild) ≠ ⟨1, strLit "a"⟩)
    ∧ (load_more_appveyor
        (fun _ => [⟨1, strLit "v1", strLit "a"⟩, ⟨2, strLit "v2", strLit "a"⟩])
        ⟨none, []⟩
      = .ok ⟨some 2, [(strLit "a", ⟨2, strLit "v2", strLit "a"⟩)]⟩
    ∧ (⟨2, strLit "v2", strLit "a"⟩ : AppveyorBuild) ≠ ⟨1, strLit "v1", strLit "a"⟩) := by
  decide

/-- C7 amended: each vendor's map only ever grows (no lookup or page load
removes a key — every key present before an insertion, a Travis page load,
or a successful AppVeyor page load is present after), but inserting an
already-present commit id silently replaces the stored build
(`HashMap::insert` semantics, identical on both maps) instead of being
rejected. -/
theorem build_map_growth :
    (∀ {α : Type} (m : List (Str × α)) (k k' : Str) (v : α),
      (containsKey m k' = true → containsKey (hInsert m k v) k' = true)
      ∧ alookup (hInsert m k v) k = some v
      ∧ (k' ≠ k → alookup (hInsert m k v) k' = alookup m k'))
    ∧ (∀ (hist : List TravisBuild) (s : TState) (k' : Str),
      containsKey s.travis k' = true →
      containsKey (load_more_travis hist s).travis k' = true)
    ∧ (∀ (pagef : Option ℕ → List AppveyorBuild) (s s' : AState) (k' : Str),
      load_more_appveyor pagef s = .ok s' →
      containsKey s.appveyor k' = true →
      containsKey s'.appveyor k' = true) := by
  have grow : ∀ {β : Type} (key : β → Str) (builds : List β)
      (m : List (Str × β)) (k' : Str),
      containsKey m k' = true →
      containsKey (builds.foldl (fun m b => hInsert m (key b) b) m) k' = true := by
    intro β key builds
    induction builds with
    | nil => intro m k' h; exact h
    | cons b bs ih =>
      intro m k' h
      refine ih _ _ ?_
      unfold containsKey at h ⊢
      rw [alookup_hInsert]
      by_cases hk : k' = key b <;> simp [hk, h]
  refine ⟨?_, ?_, ?_⟩
  · intro α m k k' v
    refine ⟨?_, ?_, ?_⟩
    · intro h
      unfold containsKey at h ⊢
      rw [alookup_hInsert]
      by_cases hk : k' = k <;> simp [hk, h]
    · rw [alookup_hInsert]; simp
    · intro h
      rw [alookup_hInsert, if_neg h]
  · intro hist s k' h
    exact grow TravisBuild.sha _ _ _ h
  · intro pagef s s' k' hok h
    have happ : load_more_appveyor pagef s
        = match (pagef s.appveyor_start_id).getLast? with
          | none => .error panicUnwrapNone
          | some last => .ok ⟨some last.id,
              (pagef s.appveyor_start_id).foldl
                (fun m b => hInsert m b.commit_id b) s.appveyor⟩ := rfl
    rw [happ] at hok
    cases hlast : (pagef s.appveyor_start_id).getLast? with
    | none =>
      rw [hlast] at hok
      exact Except.noConfusion hok
    | some last =>
      rw [hlast] at hok
      have hs' := Except.ok.inj hok
      rw [← hs']
      exact grow AppveyorBuild.commit_id _ _ _ h

theorem build_map_growth_witness :
    containsKey (hInsert [(strLit "a", (⟨1, strLit "a"⟩ : TravisBuild))]
        (strLit "b") ⟨2, strLit "b"⟩) (strLit "a") = true
    ∧ alookup (hInsert [(strLit "a", (⟨1, strLit "a"⟩ : TravisBuild))]
        (strLit "b") ⟨2, strLit "b"⟩) (strLit "b") = some ⟨2, strLit "b"⟩
    ∧ containsKey (load_more_travis [⟨3, strLit "c"⟩]
        ⟨0, [(strLit "a", ⟨1, strLit "a"⟩)]⟩).travis (strLit "a") = true
    ∧ containsKey (⟨some 9,
        [(strLit "a", ⟨1, strLit "w", strLit "a"⟩),
         (strLit "c", ⟨9, strLit "v", strLit "c"⟩)]⟩ : AState).appveyor
        (strLit "a") = true := by
  refine ⟨?_, ?_, ?_, ?_⟩
  · exact ((build_map_growth.1 [(strLit "a", (⟨1, strLit "a"⟩ : TravisBuild))]
      (strLit "b") (strLit "a") ⟨2, strLit "b"⟩).1 (by decide))
  · exact (build_map_growth.1 [(strLit "a", (⟨1, strLit "a"⟩ : TravisBuild))]
      (strLit "b") (strLit "a") ⟨2, strLit "b"⟩).2.1
  · exact build_map_growth.2.1 [⟨3, strLit "c"⟩]
      ⟨0, [(strLit "a", ⟨1, strLit "a"⟩)]⟩ (strLit "a") (by decide)
  · exact build_map_growth.2.2 (fun _ => [⟨9, strLit "v", strLit "c"⟩])
      ⟨none, [(strLit "a", ⟨1, strLit "w", strLit "a"⟩)]⟩
      ⟨some 9,
        [(strLit "a", ⟨1, strLit "w", strLit "a"⟩),
         (strLit "c", ⟨9, strLit "v", strLit "c"⟩)]⟩
      (strLit "a") (by decide) (by decide)

/-! ## C2: directory lookup loop -/

theorem alookup_insertAll_travis (builds : List TravisBuild)
    (m : List (Str × TravisBuild)) (c : Str) (h : c ∉ builds.map TravisBuild.sha) :
    alookup (builds.foldl (fun m b => hInsert m b.sha b) m) c = alookup m c := by
  induction builds generalizing m with
  | nil => rfl
  | cons b bs ih =>
    simp only [List.map_cons, List.mem_cons, not_or] at h
    simp only [List.foldl_cons]
    rw [ih _ h.2, alookup_hInsert, if_neg h.1]

theorem containsKey_insertAll_travis (builds : List TravisBuild)
    (m : List (Str × TravisBuild)) (c : Str) (h : containsKey m c = true) :
    containsKey (builds.foldl (fun m b => hInsert m b.sha b) m) c = true := by
  induction builds generalizing m with
  | nil => exact h
  | cons b bs ih =>
    simp only [List.foldl_cons]
    refine ih _ ?_
    unfold containsKey at h ⊢
    rw [alookup_hInsert]
    by_cases hk : c = b.sha <;> simp [hk, h]

theorem found_insertAll_travis (builds : List TravisBuild)
    (m : List (Str × TravisBuild)) (c : Str) (h : c ∈ builds.map TravisBuild.sha) :
    containsKey (builds.foldl (fun m b => hInsert m b.sha b) m) c = true := by
  induction builds generalizing m with
  | nil => simp at h
  | cons b bs ih =>
    simp only [List.map_cons, List.mem_cons] at h
    simp only [List.foldl_cons]
    rcases h with h | h
    · refine containsKey_insertAll_travis _ _ _ ?_
      unfold containsKey
      rw [alookup_hInsert, if_pos h]
      rfl
    · exact ih _ h

/-- If a commit does not occur anywhere in the vendor's history and is not in
the accumulated map, the `while self.travis.get(commit).is_none()` loop never
exits, whatever the fuel: there is no NotFound outcome, only more iterations
of the same (eventually empty) page request. -/
theorem travisLoop_stuck (hist : List TravisBuild) (c : Str)
    (hc : c ∉ hist.map TravisBuild.sha) :
    ∀ (fuel : ℕ) (s : TState), alookup s.travis c = none →
      travisLookupLoop hist c fuel s = none := by
  intro fuel
  induction fuel with
  | zero =>
    intro s hs
    unfold travisLookupLoop
    simp [hs]
  | succ f ih =>
    intro s hs
    unfold travisLookupLoop
    simp only [hs, Option.isSome_none, Bool.false_eq_true, if_false]
    refine ih _ ?_
    unfold load_more_travis
    simp only
    rw [alookup_insertAll_travis]
    · exact hs
    · intro hmem
      refine hc ?_
      have hsub : (travisPage hist s.travis_offset).Sublist hist := by
        unfold travisPage
        exact ((hist.drop s.travis_offset).take_sublist 25).trans
          (hist.drop_sublist s.travis_offset)
      exact (hsub.map TravisBuild.sha).mem hmem

/-- If the commit occurs in the suffix of the history the offset has not yet
consumed, and the remaining fuel covers that suffix at 25 builds per page,
the loop exits having found it. -/
theorem travisLoop_finds (hist : List TravisBuild) (c : Str) :
    ∀ (fuel : ℕ) (s : TState),
      c ∈ ((hist.drop s.travis_offset).map TravisBuild.sha) →
      hist.length ≤ s.travis_offset + 25 * fuel →
      (travisLookupLoop hist c fuel s).isSome = true := by
  intro fuel
  induction fuel with
  | zero =>
    intro s hmem hlen
    rw [List.drop_eq_nil_of_le (by omega)] at hmem
    simp at hmem
  | succ f ih =>
    intro s hmem hlen
    unfold travisLookupLoop
    by_cases hfound : (alookup s.travis c).isSome = true
    · simp [hfound]
    · simp only [hfound, if_false]
      set page := travisPage hist s.travis_offset with hpage
      by_cases hin : c ∈ page.map TravisBuild.sha
      · have hfound2 : containsKey (load_more_travis hist s).travis c = true := by
          unfold load_more_travis
          exact found_insertAll_travis _ _ _ hin
        unfold travisLookupLoop
        unfold containsKey at hfound2
        simp [hfound2]
      · have hsplit : hist.drop s.travis_offset = page ++ hist.drop (s.travis_offset + 25) := by
          rw [hpage]
          unfold travisPage
          rw [← List.drop_drop]
          exact (List.take_append_drop 25 (hist.drop s.travis_offset)).symm
        have hrem : 25 < (hist.drop s.travis_offset).length := by
          by_contra hle
          push_neg at hle
          have : page = hist.drop s.travis_offset := by
            rw [hpage]; unfold travisPage
            exact List.take_of_length_le hle
          rw [← this] at hmem
          exact hin hmem
        have hplen : page.length = 25 := by
          rw [hpage]; unfold travisPage
          rw [List.length_take]
          omega
        have hmem2 : c ∈ ((hist.drop (s.travis_offset + 25)).map TravisBuild.sha) := by
          rw [hsplit, List.map_append, List.mem_append] at hmem
          rcases hmem with h | h
          · exact absurd h hin
          · exact h
        have hoff : (load_more_travis hist s).travis_offset = s.travis_offset + 25 := by
          unfold load_more_travis
          simp [← hpage, hplen]
        have hlen2 : hist.length ≤ (load_more_travis hist s).travis_offset + 25 * f := by
          rw [hoff]; omega
        have := ih (load_more_travis hist s) (by rw [hoff]; exact hmem2) hlen2
        exact this

/-- C2 counterexample: with an exhausted Travis history (the vendor serves
an empty page: `builds.len() == 0`, the offset no longer advances), the page
load is a no-op fixpoint, the lookup loop is still running after 50
iterations — it neither finds the commit nor produces any NotFound result —
and the AppVeyor page loader panics (`builds.last().unwrap()`) on its empty
page instead of reporting NotFound. -/
theorem directory_lookup_counterexample :
    load_more_travis [] ⟨0, []⟩ = ⟨0, []⟩
    ∧ travisLookupLoop [] (strLit "deadbeef") 50 ⟨0, []⟩ = none
    ∧ (load_more_appveyor (fun _ => []) ⟨none, []⟩).isOk = false := by
  refine ⟨rfl, ?_, rfl⟩
  decide

/-- C2 amended: the directory lookup loop exits only by finding the commit in
the accumulated map.  If the commit occurs in the vendor history it is found
(within `hist.length` page loads); if it does not, the loop never terminates
— each further iteration re-requests pages forever and no NotFound error is
ever produced; and on AppVeyor an exhausted (empty) page makes the loader
panic via `builds.last().unwrap()`.  Hence a commit missing on one provider
aborts that commit's processing rather than being skipped. -/
theorem directory_lookup_behavior :
    (∀ (hist : List TravisBuild) (c : Str) (s : TState) (fuel : ℕ),
      c ∉ hist.map TravisBuild.sha → alookup s.travis c = none →
      travisLookupLoop hist c fuel s = none)
    ∧ (∀ (hist : List TravisBuild) (c : Str),
      c ∈ hist.map TravisBuild.sha →
      (travisLookupLoop hist c hist.length ⟨0, []⟩).isSome = true)
    ∧ (∀ (pagef : Option ℕ → List AppveyorBuild) (s : AState),
      pagef s.appveyor_start_id = [] → (load_more_appveyor pagef s).isOk = false) := by
  refine ⟨?_, ?_, ?_⟩
  · intro hist c s fuel hc hs
    exact travisLoop_stuck hist c hc fuel s hs
  · intro hist c hmem
    exact travisLoop_finds hist c hist.length ⟨0, []⟩ (by simpa using hmem)
      (by simp only; omega)
  · intro pagef s hp
    unfold load_more_appveyor
    rw [hp]
    rfl

theorem directory_lookup_behavior_witness :
    travisLookupLoop [⟨7, strLit "feedface"⟩] (strLit "deadbeef") 3 ⟨0, []⟩ = none
    ∧ (travisLookupLoop [⟨7, strLit "feedface"⟩] (strLit "feedface") 1 ⟨0, []⟩).isSome
        = true
    ∧ (load_more_appveyor (fun _ => []) ⟨some 4, []⟩).isOk = false := by
  refine ⟨?_, ?_, ?_⟩
  · exact directory_lookup_behavior.1 [⟨7, strLit "feedface"⟩] (strLit "deadbeef")
      ⟨0, []⟩ 3 (by decide) rfl
  · exact directory_lookup_behavior.2.1 [⟨7, strLit "feedface"⟩] (strLit "feedface")
      (by decide)
  · exact directory_lookup_behavior.2.2 (fun _ => []) ⟨some 4, []⟩ rfl

/-! ## C3 and C4: timing extraction lemmas -/

theorem mergeT_dur (t : Timing) (dv : ℚ) (p : List (Str × ℚ)) :
    (mergeT t dv p).dur = t.dur + dv := rfl

theorem alookup_foldl_mapUpd_add (p : List (Str × ℚ)) (ps : List (Str × ℚ)) (n : Str) :
    alookup (p.foldl (fun ps kv => mapUpd ps kv.1 (fun o => o.getD 0 + kv.2)) ps) n
      = if containsKey p n then some ((alookup ps n).getD 0 + partsSum p n)
        else alookup ps n := by
  induction p generalizing ps with
  | nil => simp [containsKey, alookup, partsSum]
  | cons hd rest ih =>
    obtain ⟨k, v⟩ := hd
    simp only [List.foldl_cons]
    rw [ih]
    have hps' : alookup (mapUpd ps k (fun o => o.getD 0 + v)) n
        = if n = k then some ((alookup ps k).getD 0 + v) else alookup ps n :=
      alookup_mapUpd ps k _ n
    by_cases hk : n = k
    · subst hk
      have hhead : containsKey ((n, v) :: rest) n = true := by
        simp [containsKey, alookup]
      rw [hhead, partsSum_cons, if_pos rfl]
      by_cases hrest : containsKey rest n = true
      · rw [if_pos hrest, hps', if_pos rfl]
        simp only [Option.getD_some, if_true]
        congr 1
        ring
      · rw [if_neg hrest, hps', if_pos rfl,
          partsSum_eq_zero rest n (by simpa using hrest)]
        simp only [if_true]
        congr 1
        ring
    · have hhead : containsKey ((k, v) :: rest) n = containsKey rest n := by
        simp [containsKey, alookup, hk]
      rw [hhead, partsSum_cons, if_neg hk, hps', if_neg hk]
      simp

theorem alookup_mergeT_parts (t : Timing) (dv : ℚ) (p : List (Str × ℚ)) (n : Str) :
    alookup (mergeT t dv p).parts n
      = if containsKey p n then some ((alookup t.parts n).getD 0 + partsSum p n)
        else alookup t.parts n := by
  unfold mergeT
  exact alookup_foldl_mapUpd_add p t.parts n

/-- C3: the worked example of the spec — two `[RUSTC-TIMING] crate_a 1.5`
lines followed by `[TIMING] build -- 4.0` extract to `build` with duration 4
and `parts crate_a = 3` — together with the general accumulation laws of the
extractor: a repeated `[RUSTC-TIMING]` line adds into the single existing
pending entry (the pending value grows by `v`, the number of entries grows
only if the name was absent), and a repeated `[TIMING]` line for the same
step adds to its duration and merges pending parts additively into its parts
map, never overwriting. -/
theorem timing_accumulation :
    extract_timings (strLit
        "[RUSTC-TIMING] crate_a 1.5\n[RUSTC-TIMING] crate_a 1.5\n[TIMING] build -- 4.0")
      = .ok [(strLit "build", ⟨4, [(strLit "crate_a", 3)]⟩)]
    ∧ (∀ (p : List (Str × ℚ)) (n : Str) (v : ℚ),
        alookup (updateAdd p n v) n = some ((alookup p n).getD 0 + v))
    ∧ (∀ (p : List (Str × ℚ)) (n : Str) (v : ℚ),
        (updateAdd p n v).length
          = if containsKey p n then p.length else p.length + 1)
    ∧ (∀ (s : EState) (st : Str) (dv : ℚ),
        (alookup (applyEv s (Ev.phase st dv)).ret st).map Timing.dur
          = some (((alookup s.ret st).map Timing.dur).getD 0 + dv))
    ∧ (∀ (t : Timing) (dv : ℚ) (p : List (Str × ℚ)) (n : Str),
        alookup (mergeT t dv p).parts n
          = if containsKey p n then some ((alookup t.parts n).getD 0 + partsSum p n)
            else alookup t.parts n) := by
  refine ⟨by with_unfolding_all rfl, ?_, ?_, ?_,
    fun t dv p n => alookup_mergeT_parts t dv p n⟩
  · intro p n v
    rw [alookup_updateAdd, if_pos rfl]
  · intro p n v
    induction p with
    | nil => simp [updateAdd, containsKey, alookup]
    | cons hd tl ih =>
      obtain ⟨a, b⟩ := hd
      by_cases h : n = a
      · subst h
        simp [updateAdd, containsKey, alookup]
      · have : containsKey ((a, b) :: tl) n = containsKey tl n := by
          simp [containsKey, alookup, h]
        simp only [updateAdd, if_neg h, List.length_cons, this, ih]
        by_cases hc : containsKey tl n = true <;> simp [hc]
  · intro s st dv
    show (alookup (mapUpd s.ret st _) st).map Timing.dur = _
    rw [alookup_mapUpd, if_pos rfl]
    cases h : alookup s.ret st <;> simp [h, mergeT_dur]

/-! ## C5: malformed numeric payload -/

theorem buildMeta_error (logs : List LogEntry) (meta : CommitR) (b : LogEntry)
    (e : Str) (hmem : b ∈ logs) (hid : (identify_job b.contents).isOk = true)
    (hext : extract_timings b.contents = .error e) :
    (buildMeta logs meta).isOk = false := by
  induction logs generalizing meta with
  | nil => simp at hmem
  | cons l rest ih =>
    rcases List.mem_cons.mp hmem with hb | hb
    · subst hb
      obtain ⟨j, hj⟩ : ∃ j, identify_job b.contents = .ok j := by
        cases h : identify_job b.contents with
        | error e' => rw [h] at hid; simp [Except.isOk, Except.toBool] at hid
        | ok j => exact ⟨j, rfl⟩
      unfold buildMeta
      rw [hj, hext]
      rfl
    · unfold buildMeta
      cases hI : identify_job l.contents with
      | error e' => rfl
      | ok j =>
        cases hE : extract_timings l.contents with
        | error e' => rfl
        | ok t => exact ih _ hb

/-- C5 counterexample: a commit with one well-formed job log and one log
whose `[TIMING]` line carries an unparsable payload.  Processing the commit
fails outright — no per-commit record for the good job is produced — whereas
processing the good log alone succeeds.  There is no recoverable
MalformedTiming error and no way for the caller to skip just the bad job:
`parse::<f64>().unwrap()` panics, aborting the whole run. -/
theorem malformed_timing_counterexample :
    (cache_commit false (.ok
      [⟨strLit "u1", strLit "[CI_JOB_NAME=good] x\n[TIMING] build -- 1.0", strLit "p1"⟩,
       ⟨strLit "u2", strLit "[CI_JOB_NAME=bad] x\n[TIMING] build -- oops", strLit "p2"⟩])).isOk
      = false
    ∧ (cache_commit false (.ok
      [⟨strLit "u1", strLit "[CI_JOB_NAME=good] x\n[TIMING] build -- 1.0", strLit "p1"⟩])).isOk
      = true := by
  constructor
  · with_unfolding_all rfl
  · with_unfolding_all rfl

/-- C5 amended: an unparsable numeric payload on a matching timing line makes
the extractor panic (`parse().unwrap()`); the panic propagates out of
`cache_commit` — any commit containing such a job log fails as a whole, the
other jobs of the commit are not extracted — and out of the walk: `run`
stops at that commit with the error and processes nothing older. -/
theorem malformed_timing_behavior :
    (∀ (logs : List LogEntry) (b : LogEntry) (e : Str),
      b ∈ logs → (identify_job b.contents).isOk = true →
      extract_timings b.contents = .error e →
      (cache_commit false (.ok logs)).isOk = false)
    ∧ (∀ (ex : Str → Bool) (cc : Str → Except Str Unit) (c : Str)
        (rest : List Str) (e : Str),
      ex c = false → cc c = .error e →
      runWalk ex cc (c :: rest) = ([c], [c], some e)) := by
  constructor
  · intro logs b e hmem hid hext
    have h := buildMeta_error logs ⟨[]⟩ b e hmem hid hext
    show ((some <$> buildMeta logs ⟨[]⟩ : Except Str (Option CommitR))).isOk = false
    cases hB : buildMeta logs ⟨[]⟩ with
    | error e' => rfl
    | ok m => rw [hB] at h; exact Bool.noConfusion h
  · intro ex cc c rest e hex hcc
    rw [runWalk]
    simp [hex, hcc]

theorem malformed_timing_behavior_witness :
    (cache_commit false (.ok
      [⟨strLit "u2", strLit "[CI_JOB_NAME=bad] x\n[TIMING] build -- 12,5", strLit "p2"⟩])).isOk
      = false
    ∧ runWalk (fun _ => false) (fun _ => .error (strLit "panic"))
        [strLit "A", strLit "B"]
      = ([strLit "A"], [strLit "A"], some (strLit "panic")) := by
  constructor
  · exact malformed_timing_behavior.1
      [⟨strLit "u2", strLit "[CI_JOB_NAME=bad] x\n[TIMING] build -- 12,5", strLit "p2"⟩]
      ⟨strLit "u2", strLit "[CI_JOB_NAME=bad] x\n[TIMING] build -- 12,5", strLit "p2"⟩
      panicFloat (by simp) (by with_unfolding_all rfl) (by with_unfolding_all rfl)
  · exact malformed_timing_behavior.2 (fun _ => false) (fun _ => .error (strLit "panic"))
      (strLit "A") [strLit "B"] (strLit "panic") rfl rfl

/-! ## C6: job identification -/

theorem startsWith_append_self (p r : Str) : startsWith (p ++ r) p = true := by
  induction p with
  | nil => cases r <;> rfl
  | cons c cs ih => simp [startsWith, ih]

theorem splitFirstL_self (sep rest : Str) (h : sep ≠ []) :
    splitFirstL sep (sep ++ rest) = some ([], rest) := by
  cases sep with
  | nil => exact absurd rfl h
  | cons c cs =>
    show splitFirstL (c :: cs) (c :: (cs ++ rest)) = some ([], rest)
    unfold splitFirstL
    rw [show (c :: (cs ++ rest)) = (c :: cs) ++ rest from rfl,
      startsWith_append_self (c :: cs) rest]
    simp [List.drop_left]

theorem splitFirstL_single (pre post : Str) (c0 : Char) (h : ∀ c ∈ pre, c ≠ c0) :
    splitFirstL [c0] (pre ++ c0 :: post) = some (pre, post) := by
  induction pre with
  | nil =>
    unfold splitFirstL
    simp [startsWith]
  | cons c pre' ih =>
    have hc : c ≠ c0 := h c (by simp)
    unfold splitFirstL
    rw [show ((c :: pre') ++ c0 :: post) = c :: (pre' ++ c0 :: post) from rfl]
    simp only [startsWith, Bool.and_eq_true, decide_eq_true_eq]
    rw [if_neg (by simp [hc])]
    rw [ih (fun x hx => h x (by simp [hx]))]

theorem splitNewlines_append_nonl (ds t : Str) (l : Str) (ls : List Str)
    (hds : ∀ c ∈ ds, c ≠ '\n') (ht : splitNewlines t = l :: ls) :
    splitNewlines (ds ++ t) = (ds ++ l) :: ls := by
  induction ds with
  | nil => simpa using ht
  | cons c ds' ih =>
    have hc : c ≠ '\n' := hds c (by simp)
    show splitNewlines (c :: (ds' ++ t)) = _
    unfold splitNewlines
    rw [if_neg hc, ih (fun x hx => hds x (by simp [hx]))]
    rfl

theorem stripCR_no_cr (l : Str) (c : Char) (h : c ≠ '\r') :
    stripCR (l ++ [c]) = l ++ [c] := by
  unfold stripCR
  rw [List.reverse_append]
  simp [h]

theorem digit_ne (c : Char) (h : c.isDigit = true) :
    c ≠ ']' ∧ c ≠ '\n' ∧ c ≠ '\r' := by
  refine ⟨?_, ?_, ?_⟩ <;> intro he <;> rw [he] at h <;> exact absurd h (by decide)

/-- C6 counterexample: the primary marker yields the placeholder `Job12`, an
`AGENT_JOBNAME=` line with a second token `tok2` is present, yet
`identify_job` returns `Job12`: no fallback exists in the code. -/
theorem job_identifier_counterexample :
    identify_job (strLit "x [CI_JOB_NAME=Job12] y\nfoo AGENT_JOBNAME= tok1 tok2")
      = .ok (strLit "Job12")
    ∧ strLit "Job12" ≠ strLit "tok2" := by
  constructor
  · rfl
  · decide

/-- C6 amended: `identify_job` fails with an error exactly when no line of
the log contains `[CI_JOB_NAME=`; when such a line exists, it returns the
text between the first occurrence of that marker and the next `]` — even
when that text matches the `Job<digits>` placeholder pattern, in which case
no fallback is attempted: for every nonempty digit string `ds`, a log whose
marker yields `Job<ds>` and which carries an `AGENT_JOBNAME= tok1 tok2` line
still identifies as `Job<ds>`, never as `tok2`. -/
theorem job_identifier_behavior :
    (∀ contents : Str,
      ((rustLines contents).all (fun l => !strContains l ciNeedle) = true)
        ↔ (identify_job contents).isOk = false)
    ∧ (∀ ds : Str, ds ≠ [] → allDigits ds = true →
      identify_job (strLit "[CI_JOB_NAME=Job" ++ ds
          ++ strLit "]\nfoo AGENT_JOBNAME= tok1 tok2")
        = .ok (strLit "Job" ++ ds)) := by
  constructor
  · intro contents
    constructor
    · intro hall
      have hnone : (rustLines contents).find? (fun l => strContains l ciNeedle)
          = none := by
        rw [List.find?_eq_none]
        intro x hx
        have hx2 := (List.all_eq_true.mp hall) x hx
        simp only [Bool.not_eq_true'] at hx2
        simp [hx2]
      unfold identify_job
      rw [hnone]
      rfl
    · intro hok
      rw [List.all_eq_true]
      intro x hx
      by_cases hcx : strContains x ciNeedle = true
      · exfalso
        have hsome : ((rustLines contents).find?
            (fun l => strContains l ciNeedle)).isSome = true := by
          rw [List.find?_isSome]
          exact ⟨x, hx, hcx⟩
        obtain ⟨line, hline⟩ := Option.isSome_iff_exists.mp hsome
        have hp : strContains line ciNeedle = true := by
          have := List.find?_some hline
          simpa using this
        unfold identify_job at hok
        rw [hline] at hok
        unfold strContains at hp
        obtain ⟨rest, hrest⟩ := Option.isSome_iff_exists.mp hp
        have hok2 : (match find_get_after line ciNeedle with
            | none => (Except.error
                (strLit "unreachable: find succeeded but contains failed")
                : Except Str Str)
            | some rest => Except.ok (firstPieceL rest [']'])).isOk = false := hok
        rw [hrest] at hok2
        exact Bool.noConfusion hok2
      · simp [hcx]
  · intro ds hne hdig
    have hds_nonl : ∀ c ∈ ds, c ≠ '\n' := by
      intro c hc
      exact (digit_ne c (by
        have := List.all_eq_true.mp hdig c hc
        simpa using this)).2.1
    have hds_nobr : ∀ c ∈ ds, c ≠ ']' := by
      intro c hc
      exact (digit_ne c (by
        have := List.all_eq_true.mp hdig c hc
        simpa using this)).1
    set tail2 : Str := strLit "foo AGENT_JOBNAME= tok1 tok2" with htail2
    set B : Str := strLit "]\nfoo AGENT_JOBNAME= tok1 tok2" with hB
    have hBsplit : splitNewlines B = (strLit "]") :: [tail2] := by
      rw [hB, htail2]; rfl
    have hsn1 : splitNewlines (ds ++ B) = (ds ++ strLit "]") :: [tail2] :=
      splitNewlines_append_nonl ds B _ _ hds_nonl hBsplit
    have hsn2 : splitNewlines (strLit "[CI_JOB_NAME=Job" ++ (ds ++ B))
        = (strLit "[CI_JOB_NAME=Job" ++ (ds ++ strLit "]")) :: [tail2] :=
      splitNewlines_append_nonl _ _ _ _ (by decide) hsn1
    have hassoc : strLit "[CI_JOB_NAME=Job" ++ ds ++ B
        = strLit "[CI_JOB_NAME=Job" ++ (ds ++ B) := by
      rw [List.append_assoc]
    have hline1 : strLit "[CI_JOB_NAME=Job" ++ (ds ++ strLit "]")
        = (strLit "[CI_JOB_NAME=Job" ++ ds) ++ [']'] := by
      rw [List.append_assoc]; rfl
    have hlines : rustLines (strLit "[CI_JOB_NAME=Job" ++ ds ++ B)
        = [(strLit "[CI_JOB_NAME=Job" ++ ds) ++ [']'], tail2] := by
      unfold rustLines
      rw [hassoc, hsn2]
      have hlast : (((strLit "[CI_JOB_NAME=Job" ++ (ds ++ strLit "]")) :: [tail2]).getLast?
          = some []) = False := by
        simp [htail2, List.getLast?]
        decide
      simp only [List.getLast?_cons_cons, eq_iff_iff, hlast]
      rw [if_neg (by simp [htail2, List.getLast?]; decide)]
      rw [hline1]
      simp only [List.map_cons, List.map_nil]
      rw [stripCR_no_cr _ _ (by decide)]
      rw [show stripCR tail2 = tail2 from by rw [htail2]; rfl]
    have hneedle : (strLit "[CI_JOB_NAME=Job" ++ ds) ++ [']']
        = ciNeedle ++ (strLit "Job" ++ ds ++ [']']) := by
      have h0 : strLit "[CI_JOB_NAME=Job" = ciNeedle ++ strLit "Job" := by decide
      rw [h0]
      simp [List.append_assoc]
    have hfga : find_get_after ((strLit "[CI_JOB_NAME=Job" ++ ds) ++ [']']) ciNeedle
        = some (strLit "Job" ++ ds ++ [']']) := by
      unfold find_get_after
      rw [hneedle, splitFirstL_self ciNeedle _ (by decide)]
      rfl
    have hcontains : strContains ((strLit "[CI_JOB_NAME=Job" ++ ds) ++ [']']) ciNeedle
        = true := by
      unfold strContains
      rw [hfga]
      rfl
    have hpiece : firstPieceL (strLit "Job" ++ ds ++ [']']) [']']
        = strLit "Job" ++ ds := by
      unfold firstPieceL
      have hsp : strLit "Job" ++ ds ++ [']'] = (strLit "Job" ++ ds) ++ ']' :: [] := by
        simp
      rw [hsp, splitFirstL_single (strLit "Job" ++ ds) [] ']' (by
        intro c hc
        rcases List.mem_append.mp hc with h | h
        · fin_cases h <;> decide
        · exact hds_nobr c h)]
    unfold identify_job
    rw [hlines]
    have hcontains2 : (fun l => strContains l ciNeedle)
        ((strLit "[CI_JOB_NAME=Job" ++ ds) ++ [']']) = true := hcontains
    have hf : List.find? (fun l => strContains l ciNeedle)
        [(strLit "[CI_JOB_NAME=Job" ++ ds) ++ [']'], tail2]
        = some ((strLit "[CI_JOB_NAME=Job" ++ ds) ++ [']']) :=
      List.find?_cons_of_pos _ hcontains2
    rw [hf]
    show (match find_get_after ((strLit "[CI_JOB_NAME=Job" ++ ds) ++ [']']) ciNeedle with
      | none => (Except.error
          (strLit "unreachable: find succeeded but contains failed") : Except Str Str)
      | some rest => Except.ok (firstPieceL rest [']']))
      = Except.ok (strLit "Job" ++ ds)
    rw [hfga]
    show Except.ok (firstPieceL (strLit "Job" ++ ds ++ [']']) [']'])
      = Except.ok (strLit "Job" ++ ds)
    rw [hpiece]

theorem job_identifier_behavior_witness :
    (identify_job (strLit "no markers here")).isOk = false
    ∧ identify_job (strLit "[CI_JOB_NAME=Job12]\nfoo AGENT_JOBNAME= tok1 tok2")
      = .ok (strLit "Job12") := by
  constructor
  · exact (job_identifier_behavior.1 (strLit "no markers here")).mp (by decide)
  · have h := job_identifier_behavior.2 (strLit "12") (by decide) (by decide)
    have e1 : strLit "[CI_JOB_NAME=Job" ++ strLit "12"
          ++ strLit "]\nfoo AGENT_JOBNAME= tok1 tok2"
        = strLit "[CI_JOB_NAME=Job12]\nfoo AGENT_JOBNAME= tok1 tok2" := by decide
    have e2 : strLit "Job" ++ strLit "12" = strLit "Job12" := by decide
    rw [e1, e2] at h
    exact h

/-! ## C9: overall ranking -/

theorem strLt_irrefl (s : Str) : strLt s s = false := by
  induction s with
  | nil => rfl
  | cons a as ih => simp [strLt, ih, lt_irrefl]

theorem strLt_ne {a b : Str} (h : strLt a b = true) : a ≠ b := by
  intro he
  subst he
  rw [strLt_irrefl] at h
  exact Bool.noConfusion h

theorem strLt_trans : ∀ {a b c : Str},
    strLt a b = true → strLt b c = true → strLt a c = true := by
  intro a
  induction a with
  | nil =>
    intro b c hab hbc
    cases b with
    | nil => exact Bool.noConfusion hab
    | cons y ys =>
      cases c with
      | nil => exact Bool.noConfusion hbc
      | cons z zs => rfl
  | cons x xs ih =>
    intro b c hab hbc
    cases b with
    | nil => exact Bool.noConfusion hab
    | cons y ys =>
      cases c with
      | nil => exact Bool.noConfusion hbc
      | cons z zs =>
        simp only [strLt, Bool.or_eq_true, Bool.and_eq_true, decide_eq_true_eq] at hab hbc ⊢
        rcases hab with h1 | ⟨h1, h1s⟩
        · rcases hbc with h2 | ⟨h2, h2s⟩
          · exact Or.inl (lt_trans h1 h2)
          · exact Or.inl (h2 ▸ h1)
        · rcases hbc with h2 | ⟨h2, h2s⟩
          · exact Or.inl (h1 ▸ h2)
          · exact Or.inr ⟨h1.trans h2, ih h1s h2s⟩

theorem strLt_total : ∀ (a b : Str), a ≠ b → strLt a b = true ∨ strLt b a = true := by
  intro a
  induction a with
  | nil =>
    intro b hne
    cases b with
    | nil => exact absurd rfl hne
    | cons y ys => exact Or.inl rfl
  | cons x xs ih =>
    intro b hne
    cases b with
    | nil => exact Or.inr rfl
    | cons y ys =>
      rcases lt_trichotomy x y with h | h | h
      · exact Or.inl (by simp [strLt, h])
      · subst h
        have hne2 : xs ≠ ys := fun he => hne (he ▸ rfl)
        rcases ih ys hne2 with h2 | h2
        · exact Or.inl (by simp [strLt, h2])
        · exact Or.inr (by simp [strLt, h2])
      · exact Or.inr (by simp [strLt, h])

/-- Sortedness invariant of a `BTreeMap` embedded as an association list. -/
def mapSorted {α : Type} (m : List (Str × α)) : Prop :=
  m.Pairwise (fun x y => strLt x.1 y.1 = true)

theorem btUpd_nil {α : Type} (k : Str) (f : Option α → α) :
    btUpd ([] : List (Str × α)) k f = [(k, f none)] := rfl

theorem btUpd_cons_eq {α : Type} (a : Str) (b : α) (rest : List (Str × α))
    (k : Str) (f : Option α → α) (h : k = a) :
    btUpd ((a, b) :: rest) k f = (a, f (some b)) :: rest := by
  unfold btUpd
  rw [if_pos h]

theorem btUpd_cons_lt {α : Type} (a : Str) (b : α) (rest : List (Str × α))
    (k : Str) (f : Option α → α) (hne : ¬ k = a) (hlt : strLt k a = true) :
    btUpd ((a, b) :: rest) k f = (k, f none) :: (a, b) :: rest := by
  unfold btUpd
  rw [if_neg hne, if_pos hlt]

theorem btUpd_cons_gt {α : Type} (a : Str) (b : α) (rest : List (Str × α))
    (k : Str) (f : Option α → α) (hne : ¬ k = a) (hlt : ¬ strLt k a = true) :
    btUpd ((a, b) :: rest) k f = (a, b) :: btUpd rest k f := by
  simp only [btUpd]
  rw [if_neg hne, if_neg hlt]

theorem btUpd_keys {α : Type} (m : List (Str × α)) (k : Str) (f : Option α → α) :
    ∀ x ∈ btUpd m k f, x.1 = k ∨ x.1 ∈ m.map Prod.fst := by
  induction m with
  | nil =>
    intro x hx
    rw [btUpd_nil] at hx
    rcases List.mem_singleton.mp hx with rfl
    exact Or.inl rfl
  | cons hd rest ih =>
    obtain ⟨a, b⟩ := hd
    intro x hx
    by_cases hka : k = a
    · rw [btUpd_cons_eq a b rest k f hka] at hx
      rcases List.mem_cons.mp hx with h | h
      · subst h; exact Or.inl hka.symm
      · refine Or.inr ?_
        rw [List.map_cons]
        exact List.mem_cons.mpr (Or.inr (List.mem_map.mpr ⟨x, h, rfl⟩))
    · by_cases hlt : strLt k a = true
      · rw [btUpd_cons_lt a b rest k f hka hlt] at hx
        rcases List.mem_cons.mp hx with h | h
        · subst h; exact Or.inl rfl
        · rcases List.mem_cons.mp h with h2 | h2
          · subst h2
            refine Or.inr ?_
            rw [List.map_cons]
            exact List.mem_cons.mpr (Or.inl rfl)
          · refine Or.inr ?_
            rw [List.map_cons]
            exact List.mem_cons.mpr (Or.inr (List.mem_map.mpr ⟨x, h2, rfl⟩))
      · rw [btUpd_cons_gt a b rest k f hka hlt] at hx
        rcases List.mem_cons.mp hx with h | h
        · subst h
          refine Or.inr ?_
          rw [List.map_cons]
          exact List.mem_cons.mpr (Or.inl rfl)
        · rcases ih x h with h2 | h2
          · exact Or.inl h2
          · refine Or.inr ?_
            rw [List.map_cons]
            exact List.mem_cons.mpr (Or.inr h2)

theorem btUpd_sorted {α : Type} (m : List (Str × α)) (k : Str) (f : Option α → α)
    (hs : mapSorted m) : mapSorted (btUpd m k f) := by
  induction m with
  | nil =>
    rw [btUpd_nil]
    exact List.pairwise_singleton _ _
  | cons hd rest ih =>
    obtain ⟨a, b⟩ := hd
    have hhd := (List.pairwise_cons.mp hs).1
    have hrest := (List.pairwise_cons.mp hs).2
    by_cases hka : k = a
    · rw [btUpd_cons_eq a b rest k f hka]
      exact List.pairwise_cons.mpr ⟨fun y hy => hhd y hy, hrest⟩
    · by_cases hlt : strLt k a = true
      · rw [btUpd_cons_lt a b rest k f hka hlt]
        refine List.pairwise_cons.mpr ⟨?_, hs⟩
        intro y hy
        rcases List.mem_cons.mp hy with h | h
        · subst h; exact hlt
        · exact strLt_trans hlt (hhd y h)
      · rw [btUpd_cons_gt a b rest k f hka hlt]
        refine List.pairwise_cons.mpr ⟨?_, ih hrest⟩
        intro y hy
        rcases btUpd_keys rest k f y hy with h | h
        · rw [h]
          rcases strLt_total a k (fun he => hka he.symm) with h2 | h2
          · exact h2
          · exact absurd h2 (by simp [hlt])
        · obtain ⟨z, hz, hz2⟩ := List.mem_map.mp h
          rw [← hz2]
          exact hhd z hz

theorem alookup_none_of_forall {α : Type} (m : List (Str × α)) (k : Str)
    (h : ∀ y ∈ m, k ≠ y.1) : alookup m k = none := by
  induction m with
  | nil => rfl
  | cons hd rest ih =>
    obtain ⟨a, b⟩ := hd
    have ha : k ≠ a := h (a, b) (by simp)
    simp only [alookup, if_neg ha]
    exact ih (fun y hy => h y (by simp [hy]))

theorem alookup_btUpd_sorted {α : Type} (m : List (Str × α)) (k : Str)
    (f : Option α → α) (k' : Str) (hs : mapSorted m) :
    alookup (btUpd m k f) k' = if k' = k then some (f (alookup m k)) else alookup m k' := by
  induction m with
  | nil =>
    rw [btUpd_nil]
    by_cases h : k' = k <;> simp [alookup, h]
  | cons hd rest ih =>
    obtain ⟨a, b⟩ := hd
    have hhd := (List.pairwise_cons.mp hs).1
    have hrest := (List.pairwise_cons.mp hs).2
    by_cases hka : k = a
    · rw [btUpd_cons_eq a b rest k f hka]
      have halk : alookup ((a, b) :: rest) k = some b := by
        simp [alookup, hka]
      rw [halk]
      by_cases h : k' = a
      · have h2 : k' = k := by rw [h, hka]
        rw [if_pos h2]
        simp [alookup, h]
      · have h2 : ¬ k' = k := fun he => h (he.trans hka)
        rw [if_neg h2]
        simp [alookup, h]
    · by_cases hlt : strLt k a = true
      · rw [btUpd_cons_lt a b rest k f hka hlt]
        have hnone : alookup ((a, b) :: rest) k = none := by
          refine alookup_none_of_forall _ _ ?_
          intro y hy
          rcases List.mem_cons.mp hy with h | h
          · subst h; exact hka
          · intro he
            have hcontra := strLt_trans hlt (hhd y h)
            rw [← he] at hcontra
            rw [strLt_irrefl] at hcontra
            exact Bool.noConfusion hcontra
        rw [hnone]
        by_cases h : k' = k
        · simp [alookup, h]
        · simp only [alookup, if_neg h]
      · rw [btUpd_cons_gt a b rest k f hka hlt]
        by_cases h : k' = a
        · subst h
          have hk : ¬ k' = k := fun he => hka he.symm
          simp [alookup, hk]
        · simp only [alookup, if_neg h]
          rw [ih hrest]
          by_cases h2 : k' = k
          · subst h2
            rw [if_pos rfl, if_pos rfl, if_neg h]
          · rw [if_neg h2, if_neg h2]

/-- Number of commits in the window on which the job ran. -/
def overallCount (commits : List (GitCommitE × CommitR)) (name : Str) : ℕ :=
  (commits.filter (fun p => containsKey p.2.jobs name)).length

/-- A job's total duration on one commit, summing every phase (including the
diagnostic `Distcheck` phase); zero when the job did not run there. -/
def jobTotalAt (c : CommitR) (name : Str) : ℚ :=
  match alookup c.jobs name with
  | some j => timingsTotal j.timings
  | none => 0

/-- A job's summed total duration over the whole window, every phase
included. -/
def overallTotal (commits : List (GitCommitE × CommitR)) (name : Str) : ℚ :=
  (commits.map (fun p => jobTotalAt p.2 name)).sum

theorem alookup_none_of_not_mem {α : Type} (m : List (Str × α)) (k : Str)
    (h : k ∉ m.map Prod.fst) : alookup m k = none := by
  refine alookup_none_of_forall m k ?_
  intro y hy he
  exact h (List.mem_map.mpr ⟨y, hy, he.symm⟩)

theorem alookup_jobsFold (entries : List (Str × Job)) (js : List (Str × ℕ × ℚ))
    (name : Str) (hs : mapSorted js) (hn : (entries.map Prod.fst).Nodup) :
    alookup (entries.foldl (fun js kv => btUpd js kv.1
        (fun o => ((o.getD (0, 0)).1 + 1,
                   (o.getD (0, 0)).2 + timingsTotal kv.2.timings))) js) name
      = if containsKey entries name = true then
          some (((alookup js name).getD (0, 0)).1 + 1,
                ((alookup js name).getD (0, 0)).2
                  + (match alookup entries name with
                     | some j => timingsTotal j.timings
                     | none => 0))
        else alookup js name := by
  induction entries generalizing js with
  | nil => simp [containsKey, alookup]
  | cons hd rest ih =>
    obtain ⟨k, j⟩ := hd
    rw [List.map_cons, List.nodup_cons] at hn
    simp only [List.foldl_cons]
    rw [ih _ (btUpd_sorted js k _ hs) hn.2]
    have hlk := alookup_btUpd_sorted js k
      (fun o => ((o.getD (0, 0)).1 + 1, (o.getD (0, 0)).2 + timingsTotal j.timings))
      name hs
    by_cases hk : name = k
    · subst hk
      have hrest : containsKey rest name = false := by
        unfold containsKey
        rw [alookup_none_of_not_mem rest name hn.1]
        rfl
      have hcons : containsKey ((name, j) :: rest) name = true := by
        simp [containsKey, alookup]
      rw [hrest, hcons]
      simp only [Bool.false_eq_true, if_false, if_true]
      rw [hlk, if_pos rfl]
      rw [show alookup ((name, j) :: rest) name = some j from by simp [alookup]]
    · have hcons : containsKey ((k, j) :: rest) name = containsKey rest name := by
        simp [containsKey, alookup, hk]
      have hlkv : alookup ((k, j) :: rest) name = alookup rest name := by
        simp [alookup, hk]
      rw [hcons, hlkv, hlk, if_neg hk]

theorem overallStep_eq (js : List (Str × ℕ × ℚ)) (c : CommitR) :
    overallStep js c = c.jobs.foldl (fun js kv => btUpd js kv.1
        (fun o => ((o.getD (0, 0)).1 + 1,
                   (o.getD (0, 0)).2 + timingsTotal kv.2.timings))) js := rfl

theorem overallStep_sorted (js : List (Str × ℕ × ℚ)) (c : CommitR)
    (hs : mapSorted js) : mapSorted (overallStep js c) := by
  rw [overallStep_eq]
  generalize c.jobs = entries
  induction entries generalizing js with
  | nil => exact hs
  | cons hd rest ih =>
    simp only [List.foldl_cons]
    exact ih _ (btUpd_sorted js hd.1 _ hs)

theorem alookup_overallStep (c : CommitR) (js : List (Str × ℕ × ℚ)) (name : Str)
    (hs : mapSorted js) (hn : keysNodup c.jobs) :
    alookup (overallStep js c) name
      = if containsKey c.jobs name = true then
          some (((alookup js name).getD (0, 0)).1 + 1,
                ((alookup js name).getD (0, 0)).2 + jobTotalAt c name)
        else alookup js name := by
  rw [overallStep_eq]
  exact alookup_jobsFold c.jobs js name hs hn

theorem alookup_overallFold (commits : List (GitCommitE × CommitR))
    (js : List (Str × ℕ × ℚ)) (name : Str) (hs : mapSorted js)
    (hn : ∀ p ∈ commits, keysNodup p.2.jobs) :
    alookup (commits.foldl (fun js p => overallStep js p.2) js) name
      = match alookup js name with
        | some pr => some (pr.1 + overallCount commits name,
                           pr.2 + overallTotal commits name)
        | none =>
          if commits.any (fun p => containsKey p.2.jobs name) = true
          then some (overallCount commits name, overallTotal commits name)
          else none := by
  induction commits generalizing js with
  | nil =>
    cases h : alookup js name <;>
      simp [h, overallCount, overallTotal]
  | cons q rest ih =>
    have hq := hn q (by simp)
    have hrest : ∀ p ∈ rest, keysNodup p.2.jobs := fun p hp => hn p (by simp [hp])
    simp only [List.foldl_cons]
    rw [ih _ (overallStep_sorted js q.2 hs) hrest]
    have hstep := alookup_overallStep q.2 js name hs hq
    have hCountCons : overallCount (q :: rest) name
        = (if containsKey q.2.jobs name = true then 1 else 0) + overallCount rest name := by
      unfold overallCount
      rw [List.filter_cons]
      by_cases h : containsKey q.2.jobs name = true <;> simp [h] <;> omega
    have hTotalCons : overallTotal (q :: rest) name
        = jobTotalAt q.2 name + overallTotal rest name := by
      unfold overallTotal
      rw [List.map_cons, List.sum_cons]
    have hAnyCons : (q :: rest).any (fun p => containsKey p.2.jobs name)
        = (containsKey q.2.jobs name || rest.any (fun p => containsKey p.2.jobs name)) := by
      simp
    by_cases hc : containsKey q.2.jobs name = true
    · rw [hstep, if_pos hc]
      cases hjs : alookup js name with
      | some pr =>
        simp only [hjs, Option.getD_some]
        rw [hCountCons, hTotalCons, if_pos hc]
        congr 1
        rw [Prod.mk.injEq]
        exact ⟨by omega, by ring⟩
      | none =>
        simp only [hjs, Option.getD_none]
        rw [hCountCons, hTotalCons, if_pos hc]
        rw [hAnyCons, hc]
        simp only [Bool.true_or, if_true]
        congr 1
        rw [Prod.mk.injEq]
        exact ⟨by omega, by ring⟩
    · rw [hstep, if_neg hc]
      have hjta : jobTotalAt q.2 name = 0 := by
        unfold jobTotalAt
        unfold containsKey at hc
        cases hl : alookup q.2.jobs name with
        | some j => rw [hl] at hc; exact absurd rfl hc
        | none => rfl
      have hc2 : containsKey q.2.jobs name = false := by
        cases h : containsKey q.2.jobs name
        · rfl
        · exact absurd h hc
      rw [hCountCons, hTotalCons, hjta, hAnyCons, hc2]
      simp only [Bool.false_eq_true, if_false, Nat.zero_add, zero_add, Bool.false_or]

theorem foldl_add_durs (l : List (Str × Timing)) (a : ℚ) :
    l.foldl (fun acc kv => acc + kv.2.dur) a
      = a + (l.map (fun kv => kv.2.dur)).sum := by
  induction l generalizing a with
  | nil => simp
  | cons hd tl ih =>
    simp only [List.foldl_cons, List.map_cons, List.sum_cons]
    rw [ih]
    ring

theorem timingsTotal_cons (k : Str) (t : Timing) (rest : List (Str × Timing)) :
    timingsTotal ((k, t) :: rest) = t.dur + timingsTotal rest := by
  unfold timingsTotal
  simp only [List.foldl_cons]
  rw [foldl_add_durs, foldl_add_durs]
  ring

theorem timingsTotalExcl_cons (k : Str) (t : Timing) (rest : List (Str × Timing)) :
    timingsTotalExcl ((k, t) :: rest)
      = (if k = distcheckStr then 0 else t.dur) + timingsTotalExcl rest := by
  unfold timingsTotalExcl
  rw [List.filter_cons]
  by_cases h : k = distcheckStr
  · rw [if_neg (by simp [h]), if_pos h, zero_add]
  · rw [if_pos (by simp [h]), if_neg h]
    simp only [List.foldl_cons]
    rw [foldl_add_durs, foldl_add_durs]
    ring

theorem distcheckTotal_cons (k : Str) (t : Timing) (rest : List (Str × Timing)) :
    distcheckTotal ((k, t) :: rest)
      = (if k = distcheckStr then t.dur else 0) + distcheckTotal rest := by
  unfold distcheckTotal
  rw [List.filter_cons]
  by_cases h : k = distcheckStr
  · rw [if_pos (by simp [h]), if_pos h]
    simp only [List.foldl_cons]
    rw [foldl_add_durs, foldl_add_durs]
    ring
  · rw [if_neg (by simp [h]), if_neg h, zero_add]

theorem timingsTotal_split (ts : List (Str × Timing)) :
    timingsTotal ts = timingsTotalExcl ts + distcheckTotal ts := by
  induction ts with
  | nil => simp [timingsTotal, timingsTotalExcl, distcheckTotal]
  | cons hd rest ih =>
    obtain ⟨k, t⟩ := hd
    rw [timingsTotal_cons, timingsTotalExcl_cons, distcheckTotal_cons, ih]
    by_cases h : k = distcheckStr <;> simp [h] <;> ring

/-- C9 amended: the overall ranking aggregates, for each job name, the count
of commits it ran on and the sum over the window of its total duration with
EVERY phase included — Distcheck is not excluded from the ranking key; the
output series order is exactly the stable sort of the job names by the code's
key (truncated negated mean of that all-phases total); Distcheck is excluded
only from the plotted per-commit series values, which equal the all-phases
total minus the Distcheck mass. -/
theorem overall_ranking_behavior (commits : List (GitCommitE × CommitR)) (name : Str)
    (hn : ∀ p ∈ commits, keysNodup p.2.jobs) :
    (alookup (overallJobs commits) name
      = if commits.any (fun p => containsKey p.2.jobs name) = true
        then some (overallCount commits name, overallTotal commits name)
        else none)
    ∧ ((write_overall commits).1.map Prod.fst
        = stableSortByKey (sortKeyFn (overallJobs commits))
            ((overallJobs commits).map Prod.fst))
    ∧ (∀ ts : List (Str × Timing),
        timingsTotal ts = timingsTotalExcl ts + distcheckTotal ts)
    ∧ (∀ (c : CommitR) (j : Str), seriesVal c j
        = match alookup c.jobs j with
          | some d => timingsTotal d.timings - distcheckTotal d.timings
          | none => 0) := by
  refine ⟨?_, ?_, timingsTotal_split, ?_⟩
  · unfold overallJobs
    rw [alookup_overallFold commits [] name List.Pairwise.nil hn]
    rfl
  · simp only [write_overall, List.map_map]
    rw [show (Prod.fst ∘ fun j =>
        (j, (List.map (fun p => seriesVal p.2 j) commits).reverse)) = id from rfl]
    exact List.map_id _
  · intro c j
    unfold seriesVal
    cases h : alookup c.jobs j with
    | some d =>
      show timingsTotalExcl d.timings
        = timingsTotal d.timings - distcheckTotal d.timings
      have hsplit := timingsTotal_split d.timings
      linarith
    | none => rfl

/-- C9 counterexample: one commit, job `A` with phases Distcheck = 100 and
x = 1, job `B` with phase x = 50.  The code ranks by the all-phases mean
(A: 101, B: 50), placing `A` first in the emitted series; ranking by the mean
excluding Distcheck (A: 1, B: 50), as the claim states, would place `B`
first. -/
theorem overall_ranking_counterexample :
    ((write_overall
        [(⟨strLit "s1", strLit "d1"⟩,
          ⟨[(strLit "A", ⟨strLit "uA", strLit "pA", none,
              [(strLit "Distcheck", ⟨100, []⟩), (strLit "x", ⟨1, []⟩)]⟩),
            (strLit "B", ⟨strLit "uB", strLit "pB", none,
              [(strLit "x", ⟨50, []⟩)]⟩)]⟩)]).1.map Prod.fst
      = [strLit "A", strLit "B"])
    ∧ stableSortByKey (specRankKeyFn
        [(⟨strLit "s1", strLit "d1"⟩,
          ⟨[(strLit "A", ⟨strLit "uA", strLit "pA", none,
              [(strLit "Distcheck", ⟨100, []⟩), (strLit "x", ⟨1, []⟩)]⟩),
            (strLit "B", ⟨strLit "uB", strLit "pB", none,
              [(strLit "x", ⟨50, []⟩)]⟩)]⟩)])
        [strLit "A", strLit "B"]
      = [strLit "B", strLit "A"]
    ∧ ([strLit "A", strLit "B"] : List Str) ≠ [strLit "B", strLit "A"] := by
  refine ⟨by with_unfolding_all rfl, by with_unfolding_all rfl, by decide⟩

theorem overall_ranking_behavior_witness :
    alookup (overallJobs
        [(⟨strLit "s2", strLit "d2"⟩,
          ⟨[(strLit "J", ⟨strLit "uJ", strLit "pJ", none,
              [(strLit "Distcheck", ⟨7, []⟩), (strLit "y", ⟨2, []⟩)]⟩)]⟩)])
        (strLit "J")
      = some (1, 9)
    ∧ timingsTotal [(strLit "Distcheck", (⟨7, []⟩ : Timing)), (strLit "y", ⟨2, []⟩)]
      = timingsTotalExcl [(strLit "Distcheck", (⟨7, []⟩ : Timing)), (strLit "y", ⟨2, []⟩)]
        + distcheckTotal [(strLit "Distcheck", (⟨7, []⟩ : Timing)), (strLit "y", ⟨2, []⟩)] := by
  have h := overall_ranking_behavior
    [(⟨strLit "s2", strLit "d2"⟩,
      ⟨[(strLit "J", ⟨strLit "uJ", strLit "pJ", none,
          [(strLit "Distcheck", ⟨7, []⟩), (strLit "y", ⟨2, []⟩)]⟩)]⟩)]
    (strLit "J")
    (by intro p hp; rcases List.mem_singleton.mp hp with rfl; unfold keysNodup; decide)
  constructor
  · rw [h.1]
    with_unfolding_all rfl
  · exact h.2.2.1 [(strLit "Distcheck", ⟨7, []⟩), (strLit "y", ⟨2, []⟩)]

/-! ## C4: attribution of pending parts to the next `[TIMING]` line -/

/-- The step of the first `[TIMING]` event in an event sequence, if any. -/
def firstPhaseStep : List Ev → Option Str
  | [] => none
  | Ev.phase st _ :: _ => some st
  | Ev.part _ _ :: rest => firstPhaseStep rest

/-- Whether some `[RUSTC-TIMING]` event named `n` is attributed to step `st`:
its next following `[TIMING]` event carries step `st`. -/
def attribHit : List Ev → Str → Str → Bool
  | [], _, _ => false
  | Ev.part m _ :: rest, st, n =>
    (decide (m = n) && decide (firstPhaseStep rest = some st)) || attribHit rest st n
  | Ev.phase _ _ :: rest, st, n => attribHit rest st n

/-- Total mass of `[RUSTC-TIMING]` events named `n` attributed to step `st`. -/
def attrib : List Ev → Str → Str → ℚ
  | [], _, _ => 0
  | Ev.part m v :: rest, st, n =>
    (if m = n ∧ firstPhaseStep rest = some st then v else 0) + attrib rest st n
  | Ev.phase _ _ :: rest, st, n => attrib rest st n

def partLookup (s : EState) (st n : Str) : Option ℚ :=
  (alookup s.ret st).bind (fun t => alookup t.parts n)

theorem attrib_of_not_hit (evs : List Ev) (st n : Str)
    (h : attribHit evs st n = false) : attrib evs st n = 0 := by
  induction evs with
  | nil => rfl
  | cons ev rest ih =>
    cases ev with
    | part m v =>
      simp only [attribHit, Bool.or_eq_false_iff, Bool.and_eq_false_iff] at h
      have hcond : ¬ (m = n ∧ firstPhaseStep rest = some st) := by
        intro ⟨h1, h2⟩
        rcases h.1 with h3 | h3
        · rw [h1] at h3; simp at h3
        · rw [h2] at h3; simp at h3
      simp only [attrib, if_neg hcond, ih h.2, zero_add]
    | phase st' dv =>
      simp only [attribHit] at h
      simp only [attrib, ih h]

theorem applyEvs_append (a b : List Ev) (s : EState) :
    applyEvs (a ++ b) s = applyEvs b (applyEvs a s) := by
  unfold applyEvs
  exact List.foldl_append _ _ _ _

theorem extractLoop_eq_logEvs (ls : List Str) (s : EState) :
    extractLoop ls s = (logEvs ls).map (fun evs => applyEvs evs s) := by
  induction ls generalizing s with
  | nil => rfl
  | cons l ls ih =>
    show (do extractLoop ls (applyEvs (← lineEvs l) s)) = _
    cases hl : lineEvs l with
    | error e =>
      show Except.error e = (logEvs (l :: ls)).map _
      unfold logEvs
      rw [hl]
      rfl
    | ok e1 =>
      show extractLoop ls (applyEvs e1 s) = _
      rw [ih]
      have hcons : logEvs (l :: ls) = (do
          let a ← lineEvs l
          let b ← logEvs ls
          pure (a ++ b) : Except Str (List Ev)) := rfl
      rw [hcons, hl]
      cases h2 : logEvs ls with
      | error e => rfl
      | ok e2 =>
        show Except.ok (applyEvs e2 (applyEvs e1 s)) = Except.ok (applyEvs (e1 ++ e2) s)
        rw [applyEvs_append]

theorem applyEvs_partLookup (evs : List Ev) :
    ∀ (s : EState) (st n : Str),
    partLookup (applyEvs evs s) st n
      = optAdd (optAdd (partLookup s st n)
          (if firstPhaseStep evs = some st ∧ containsKey s.parts n = true
           then some (partsSum s.parts n) else none))
        (if attribHit evs st n = true then some (attrib evs st n) else none) := by
  induction evs with
  | nil =>
    intro s st n
    show partLookup s st n = _
    rw [show firstPhaseStep [] = none from rfl,
      show attribHit [] st n = false from rfl]
    rw [if_neg (by simp), if_neg (by simp)]
    rw [optAdd_none_right, optAdd_none_right]
  | cons ev rest ih =>
    intro s st n
    cases ev with
    | part m v' =>
      have hstep : applyEvs (Ev.part m v' :: rest) s
          = applyEvs rest { s with parts := updateAdd s.parts m v' } := rfl
      rw [hstep, ih]
      have hpl : partLookup { s with parts := updateAdd s.parts m v' } st n
          = partLookup s st n := rfl
      rw [hpl]
      rw [show firstPhaseStep (Ev.part m v' :: rest) = firstPhaseStep rest from rfl]
      rw [show attribHit (Ev.part m v' :: rest) st n
          = ((decide (m = n) && decide (firstPhaseStep rest = some st))
             || attribHit rest st n) from rfl]
      rw [show attrib (Ev.part m v' :: rest) st n
          = (if m = n ∧ firstPhaseStep rest = some st then v' else 0)
            + attrib rest st n from rfl]
      rw [containsKey_updateAdd s.parts m v' n, partsSum_updateAdd s.parts m v' n]
      by_cases hf : firstPhaseStep rest = some st
      · by_cases hm : m = n
        · subst hm
          by_cases hc : containsKey s.parts m = true
          · by_cases ha : attribHit rest st m = true
            · cases hB : partLookup s st m <;>
                (simp [optAdd, hf, hc, ha]; ring)
            · have ha0 := attrib_of_not_hit rest st m (by simpa using ha)
              cases hB : partLookup s st m <;>
                (simp [optAdd, hf, hc, ha, ha0]; try ring)
          · have hc0 : containsKey s.parts m = false := by simpa using hc
            have hS := partsSum_eq_zero s.parts m hc0
            by_cases ha : attribHit rest st m = true
            · cases hB : partLookup s st m <;>
                (simp [optAdd, hf, hc0, ha, hS]; try ring)
            · have ha0 := attrib_of_not_hit rest st m (by simpa using ha)
              cases hB : partLookup s st m <;>
                (simp [optAdd, hf, hc0, ha, ha0, hS]; try ring)
        · have hm2 : ¬ n = m := fun he => hm he.symm
          by_cases ha : attribHit rest st n = true <;>
            cases hB : partLookup s st n <;>
              simp [optAdd, hf, hm, hm2, ha]
      · by_cases ha : attribHit rest st n = true <;>
          cases hB : partLookup s st n <;>
            simp [optAdd, hf, ha]
    | phase st' dv =>
      have hstep : applyEvs (Ev.phase st' dv :: rest) s
          = applyEvs rest
              ⟨[], mapUpd s.ret st'
                (fun o => mergeT (o.getD ⟨0, []⟩) dv s.parts)⟩ := rfl
      rw [hstep, ih]
      rw [show containsKey (⟨[], mapUpd s.ret st'
            (fun o => mergeT (o.getD ⟨0, []⟩) dv s.parts)⟩ : EState).parts n
          = false from rfl]
      rw [if_neg (by simp), optAdd_none_right]
      rw [show firstPhaseStep (Ev.phase st' dv :: rest) = some st' from rfl]
      rw [show attribHit (Ev.phase st' dv :: rest) st n = attribHit rest st n from rfl]
      rw [show attrib (Ev.phase st' dv :: rest) st n = attrib rest st n from rfl]
      have hbase : alookup ((alookup s.ret st).getD ⟨0, []⟩).parts n
          = partLookup s st n := by
        cases h : alookup s.ret st <;> simp [partLookup, h, alookup]
      have hpl2 : partLookup (⟨[], mapUpd s.ret st'
            (fun o => mergeT (o.getD ⟨0, []⟩) dv s.parts)⟩ : EState) st n
          = optAdd (partLookup s st n)
              (if st = st' ∧ containsKey s.parts n = true
               then some (partsSum s.parts n) else none) := by
        show (alookup (mapUpd s.ret st' _) st).bind (fun t => alookup t.parts n) = _
        rw [alookup_mapUpd]
        by_cases hst : st = st'
        · rw [if_pos hst]
          show alookup (mergeT ((alookup s.ret st').getD ⟨0, []⟩) dv s.parts).parts n = _
          rw [alookup_mergeT_parts, ← hst, hbase]
          by_cases hc : containsKey s.parts n = true
          · rw [if_pos hc, if_pos ⟨rfl, hc⟩, optAdd_some_right]
          · rw [if_neg hc, if_neg (by intro hand; exact hc hand.2), optAdd_none_right]
        · rw [if_neg hst]
          rw [if_neg (by intro hand; exact hst hand.1), optAdd_none_right]
          rfl
      rw [hpl2]
      have hiff : (some st' = some st ∧ containsKey s.parts n = true)
          ↔ (st = st' ∧ containsKey s.parts n = true) := by
        constructor
        · intro hand
          exact ⟨(Option.some.inj hand.1).symm, hand.2⟩
        · intro hand
          exact ⟨by rw [hand.1], hand.2⟩
      rw [if_congr hiff rfl rfl]

/-- C4: (bridge) when a log parses into the event sequence `evs`, the
extracted `parts` entry of phase `st` under name `n` is exactly the additive
mass of the `[RUSTC-TIMING]` events whose NEXT `[TIMING]` event carries step
`st` (and the entry is absent when no such event exists): every pending part
is attributed to the next `[TIMING]` line after it and to no earlier phase,
since the pending buffer is drained at each `[TIMING]` line; and a trailing
`[RUSTC-TIMING]` event with no following `[TIMING]` event leaves the result
untouched — it appears in no phase.  Extractor state is fresh per log:
`extract_timings` is a pure function of the log text alone. -/
theorem parts_attribution (contents : Str) (evs : List Ev) (st n : Str) (v : ℚ) :
    (logEvs (rustLines contents) = .ok evs →
      (extract_timings contents).map
          (fun ret => (alookup ret st).bind (fun t => alookup t.parts n))
        = .ok (if attribHit evs st n = true then some (attrib evs st n) else none))
    ∧ (applyEvs (evs ++ [Ev.part n v]) ⟨[], []⟩).ret
        = (applyEvs evs ⟨[], []⟩).ret := by
  constructor
  · intro h
    unfold extract_timings
    rw [extractLoop_eq_logEvs, h]
    show Except.ok (partLookup (applyEvs evs ⟨[], []⟩) st n) = _
    rw [applyEvs_partLookup]
    rw [show partLookup ⟨[], []⟩ st n = none from rfl]
    rw [show containsKey (⟨[], []⟩ : EState).parts n = false from rfl]
    rw [if_neg (by simp)]
    rfl
  · rw [applyEvs_append]
    rfl

theorem parts_attribution_witness :
    (extract_timings (strLit
        "[RUSTC-TIMING] a 1.0\n[TIMING] s -- 2.0\n[RUSTC-TIMING] b 1.0")).map
        (fun ret => (alookup ret (strLit "s")).bind
          (fun t => alookup t.parts (strLit "a")))
      = .ok (some 1)
    ∧ (applyEvs ([Ev.part (strLit "a") 1, Ev.phase (strLit "s") 2,
          Ev.part (strLit "b") 1] ++ [Ev.part (strLit "c") 5]) ⟨[], []⟩).ret
      = (applyEvs [Ev.part (strLit "a") 1, Ev.phase (strLit "s") 2,
          Ev.part (strLit "b") 1] ⟨[], []⟩).ret := by
  have h := parts_attribution
    (strLit "[RUSTC-TIMING] a 1.0\n[TIMING] s -- 2.0\n[RUSTC-TIMING] b 1.0")
    [Ev.part (strLit "a") 1, Ev.phase (strLit "s") 2, Ev.part (strLit "b") 1]
    (strLit "s") (strLit "a") 5
  constructor
  · rw [h.1 (by with_unfolding_all rfl)]
    with_unfolding_all rfl
  · exact (parts_attribution
      (strLit "[RUSTC-TIMING] a 1.0\n[TIMING] s -- 2.0\n[RUSTC-TIMING] b 1.0")
      [Ev.part (strLit "a") 1, Ev.phase (strLit "s") 2, Ev.part (strLit "b") 1]
      (strLit "s") (strLit "c") 5).2
